import Mathlib

/-!
Verification of the iris-web-backend pathfinding service.

This file gives a shallow embedding of the core of the repository:

* `app/core/pathfinding.py` — `RedisBasedBFSPathFinder.find_shortest_path`,
  `_perform_bfs_search`, `_cleanup_search_state`, and
  `BidirectionalBFSPathFinder.find_shortest_path`;
* `app/external/wikipedia.py` — `WikipediaClient.get_links_bulk` and
  `_parse_batch_response`;
* `app/infrastructure/tasks.py` — `find_path_task` (one run of the handler
  body plus the Celery retry driver; the handler catches the retryable
  exceptions itself and re-raises via `self.retry(exc=e)` with no countdown,
  so retries are scheduled after Celery's `Task.default_retry_delay`);
* `app/core/models.py` — `SearchRequest.validate`.

Modelling conventions:

* Titles are `String`.  The deterministic upstream title→links map served by
  the Wikipedia client is a finite association list `Graph`; a title absent
  from the list has no links (`links_bulk.get(current_page, [])`).
* The Redis state touched by one search session is modelled structurally.
  All session keys share the fresh session id `sid`, so the string keys
  `bfs_queue:{sid}`, `bfs_visited:{sid}:{t}` and `bfs_paths:{sid}:{t}` are in
  bijection with the three fields of `Store`: the queue list, the set of
  titles `t` whose visited marker exists, and the map from titles to their
  stored predecessor chains.  `clear_pattern("bfs_visited:{sid}:*")` is
  deletion of the whole `visited` field, and similarly for paths.
* `Store.pushLog` is a ghost field: it records every title ever pushed onto
  the session queue (in reverse push order).  It corresponds to no Redis
  key; it only lets theorems speak about the whole history of enqueues.
* The `while` loop of `_perform_bfs_search` is embedded with explicit fuel;
  `bfsFuel` is proved sufficient (`bfsLoop_ne_fuelOut`), so the `fuelOut`
  outcome never occurs for `find_shortest_path` and the embedded function
  has exactly the observable behaviour of the Python loop.
* Store backend failures during cleanup are modelled by parametrising
  `_cleanup_search_state` over the three clearing operations (`StoreOps`),
  which may fail like the Redis client may raise; the `try/except` of the
  Python cleanup is the total function `cleanupSearchState`.
-/

/-! ## Graph and session store -/

/-- Deterministic title→links map served by the upstream client. -/
abbrev Graph := List (String × List String)

/-- Links of a page: `links_bulk.get(current_page, [])`. -/
def linksOf (g : Graph) (t : String) : List String := (g.lookup t).getD []

/-- One pending frontier entry `{"page": ..., "depth": ...}` on `bfs_queue:{sid}`. -/
structure QItem where
  page : String
  depth : Nat
deriving Repr, DecidableEq

/-- The Redis state owned by one search session (see the module docstring for
the key correspondence), plus the ghost log of every enqueued title. -/
structure Store where
  queue : List QItem
  visited : List String
  paths : List (String × List String)
  pushLog : List String
deriving Repr, DecidableEq

/-- A store holding no session keys. -/
def emptyStore : Store := { queue := [], visited := [], paths := [], pushLog := [] }

/-- Error kind raised by the Redis-backed cache and queue adapters
(`CacheConnectionError`). -/
inductive StoreErr where
  | cacheConnectionError
deriving Repr, DecidableEq

/-- The three store-clearing operations used by `_cleanup_search_state`:
`queue_service.clear(queue_key)`, `clear_pattern(f"{visited_key}:*")` and
`clear_pattern(f"{paths_key}:*")`.  Each may fail the way the Redis client
may raise. -/
structure StoreOps where
  clearQueue : Store → Except StoreErr Store
  clearVisitedKeys : Store → Except StoreErr Store
  clearPathKeys : Store → Except StoreErr Store

/-- The operations as executed by a healthy Redis backend: deleting
`bfs_queue:{sid}` empties the queue, and the two `clear_pattern` calls delete
every visited marker and every stored path of the session. -/
def healthyOps : StoreOps where
  clearQueue st := .ok { st with queue := [] }
  clearVisitedKeys st := .ok { st with visited := [] }
  clearPathKeys st := .ok { st with paths := [] }

/-- `_cleanup_search_state` (pathfinding.py lines 278–298): clear the queue,
then the visited keys, then the path keys, inside `try/except`: a failure
stops the remaining clears, is logged, and is never re-raised, leaving the
store as the operations that did run left it. -/
def cleanupSearchState (ops : StoreOps) (st : Store) : Store :=
  match ops.clearQueue st with
  | .error _ => st
  | .ok s1 =>
    match ops.clearVisitedKeys s1 with
    | .error _ => s1
    | .ok s2 =>
      match ops.clearPathKeys s2 with
      | .error _ => s2
      | .ok s3 => s3

/-! ## The BFS engine (`RedisBasedBFSPathFinder`) -/

/-- The inner `for link in links` loop of `_perform_bfs_search` (lines
172–207): return `current_path + [link]` on finding the target, skip visited
links, and otherwise mark visited, store the extended path and enqueue at
`depth + 1`. -/
def processLinks (endPage : String) (currentPath : List String) (depth : Nat) :
    List String → Store → Option (List String) × Store
  | [], st => (none, st)
  | link :: rest, st =>
    if link = endPage then (some (currentPath ++ [link]), st)
    else if st.visited.contains link then processLinks endPage currentPath depth rest st
    else
      processLinks endPage currentPath depth rest
        { queue := st.queue ++ [⟨link, depth + 1⟩],
          visited := link :: st.visited,
          paths := (link, currentPath ++ [link]) :: st.paths,
          pushLog := link :: st.pushLog }

/-- Outcome of the `while` loop of `_perform_bfs_search`: a found path with
the node count, or falling through to `raise PathNotFoundError` (both when
the queue drains and when the depth check breaks), or fuel exhaustion (an
artifact of the embedding, proved unreachable for `bfsFuel`). -/
inductive BfsOutcome where
  | found (path : List String) (nodesExplored : Nat)
  | notFound
  | fuelOut
deriving Repr, DecidableEq

/-- The `while self.queue_service.length(queue_key) > 0` loop of
`_perform_bfs_search` (lines 113–214): pop, count the node, break past the
depth limit, skip entries whose stored path is missing or empty (falsy), and
otherwise expand the links. -/
def bfsLoop (g : Graph) (endPage : String) (maxDepth : Nat) :
    Nat → Nat → Store → BfsOutcome × Store
  | 0, _, st => (.fuelOut, st)
  | fuel + 1, nodesExplored, st =>
    match st.queue with
    | [] => (.notFound, st)
    | item :: rest =>
      let st0 : Store := { st with queue := rest }
      let n' := nodesExplored + 1
      if maxDepth < item.depth then (.notFound, st0)
      else
        match st0.paths.lookup item.page with
        | none => bfsLoop g endPage maxDepth fuel n' st0
        | some currentPath =>
          if currentPath = [] then bfsLoop g endPage maxDepth fuel n' st0
          else
            match processLinks endPage currentPath item.depth (linksOf g item.page) st0 with
            | (some path, st1) => (.found path n', st1)
            | (none, st1) => bfsLoop g endPage maxDepth fuel n' st1

/-- Session seeding (lines 100–106): push `{"page": start, "depth": 0}` and
set the visited marker and the singleton path for the start page. -/
def seedSearch (startPage : String) (st : Store) : Store :=
  { queue := st.queue ++ [⟨startPage, 0⟩],
    visited := startPage :: st.visited,
    paths := (startPage, [startPage]) :: st.paths,
    pushLog := startPage :: st.pushLog }

/-- Every title appearing in some links list of the graph — the only titles
the loop can ever enqueue after seeding. -/
def allTargets (g : Graph) : List String := (g.map Prod.snd).flatten

/-- Number of distinct titles of the graph's link lists not yet visited. -/
def unvisitedCount (g : Graph) (st : Store) : Nat :=
  ((allTargets g).toFinset \ st.visited.toFinset).card

/-- Termination measure of the BFS loop: pending queue entries plus distinct
enqueueable titles not yet visited. -/
def bfsMeasure (g : Graph) (st : Store) : Nat := st.queue.length + unvisitedCount g st

/-- Fuel sufficient for the whole search (strictly above `bfsMeasure`). -/
def bfsFuel (g : Graph) (st : Store) : Nat :=
  st.queue.length + (allTargets g).dedup.length + 1

/-- Errors raised by `find_shortest_path`: `InvalidPageError` and
`PathNotFoundError`, plus the embedding artifact for exhausted fuel. -/
inductive EngineError where
  | invalidPage
  | pathNotFound
  | fuelExhausted
deriving Repr, DecidableEq

/-- Successful result `{"path": ..., "nodes_explored": ...}`. -/
structure FindResult where
  path : List String
  nodesExplored : Nat
deriving Repr, DecidableEq

/-- `RedisBasedBFSPathFinder.find_shortest_path` (lines 41–82): validate the
titles, short-circuit the same-page case without touching the store, check
page existence, then run the BFS and clean up the session keys on every exit
(the `try/finally`). -/
def find_shortest_path (g : Graph) (pageExists : String → Bool) (maxDepth : Nat)
    (startPage endPage : String) (st : Store) (ops : StoreOps) :
    Except EngineError FindResult × Store :=
  if startPage = "" then (.error .invalidPage, st)
  else if endPage = "" then (.error .invalidPage, st)
  else if startPage = endPage then (.ok ⟨[startPage], 1⟩, st)
  else if pageExists startPage = false then (.error .invalidPage, st)
  else if pageExists endPage = false then (.error .invalidPage, st)
  else
    let st0 := seedSearch startPage st
    match bfsLoop g endPage maxDepth (bfsFuel g st0) 0 st0 with
    | (.found p k, st1) => (.ok ⟨p, k⟩, cleanupSearchState ops st1)
    | (.notFound, st1) => (.error .pathNotFound, cleanupSearchState ops st1)
    | (.fuelOut, st1) => (.error .fuelExhausted, cleanupSearchState ops st1)

/-- `BidirectionalBFSPathFinder.find_shortest_path` (lines 319–331): the
finder keeps its own `max_depth` (default 3) but its `find_shortest_path`
constructs a fresh `RedisBasedBFSPathFinder(self.wikipedia_client,
self.cache_service, self.queue_service)` with all defaults — in particular
`max_depth = 6` and `progress_callback = None` — and delegates to it,
ignoring `ownMaxDepth`. -/
def bidirectional_find_shortest_path (g : Graph) (pageExists : String → Bool)
    (ownMaxDepth : Nat) (startPage endPage : String) (st : Store) (ops : StoreOps) :
    Except EngineError FindResult × Store :=
  find_shortest_path g pageExists 6 startPage endPage st ops

/-- Default `max_depth` of `BidirectionalBFSPathFinder.__init__` (line 312). -/
def bidirectionalDefaultMaxDepth : Nat := 3

/-! ## Paths in the link graph -/

/-- A non-empty list of titles that starts at `s`, ends at `t`, and whose
adjacent pairs are joined by a direct link of `g`. -/
def isPathFromTo (g : Graph) (p : List String) (s t : String) : Prop :=
  p.head? = some s ∧ p.getLast? = some t ∧ List.Chain' (fun a b => b ∈ linksOf g a) p

/-- `t` is reachable from `s` by a path of at most `n` hops. -/
def ReachableIn (g : Graph) (s t : String) (n : Nat) : Prop :=
  ∃ p, isPathFromTo g p s t ∧ p.length ≤ n + 1

/-! ## The upstream link client (`WikipediaClient`) -/

/-- The link filter of `_parse_batch_response` (wikipedia.py lines 144–148):
keep a link title when `":" not in link["title"] or
link["title"].startswith("List of")`.  Stated on the character data so the
kernel can evaluate it. -/
def keepLink (t : String) : Bool :=
  !(t.data.contains ':') || "List of".data.isPrefixOf t.data

/-- One entry of `query.pages`: the optional `title`, whether the `missing`
marker is present, and the `links[].title` list in API order. -/
structure ApiPage where
  title : Option String
  missing : Bool
  links : List String
deriving Repr, DecidableEq

/-- The parsed `query` object of one batch response: `redirects` and
`normalized` as from→to pairs, and the pages in iteration order. -/
structure ApiResponse where
  redirects : List (String × String)
  normalized : List (String × String)
  pages : List ApiPage
deriving Repr, DecidableEq

/-- Insert-or-overwrite on the results dict (`results[title] = links`);
`List.lookup` reads the most recent binding first. -/
def dset (m : List (String × List String)) (k : String) (v : List String) :
    List (String × List String) := (k, v) :: m

/-- Handling of one `query.pages` entry in `_parse_batch_response` (lines
137–159): skip falsy or missing titles, filter the links, record the result
under the resolved title, then under every redirected and normalized original
title of the batch that resolves to it. -/
def parsePage (data : ApiResponse) (original_batch : List String)
    (results : List (String × List String)) (page : ApiPage) :
    List (String × List String) :=
  match page.title with
  | none => results
  | some title =>
    if title = "" then results
    else if page.missing then results
    else
      let article_links := page.links.filter keepLink
      let r1 := dset results title article_links
      let r2 := data.redirects.foldl
        (fun r ft =>
          if ft.2 = title ∧ ft.1 ∈ original_batch then dset r ft.1 article_links else r) r1
      data.normalized.foldl
        (fun r ft =>
          if ft.2 = title ∧ ft.1 ∈ original_batch then dset r ft.1 article_links else r) r2

/-- `WikipediaClient._parse_batch_response` (lines 124–167): fold over the
pages, then give every batch title that got no result the explicit empty
list (the comment in the source: "Ensure all batch titles have results
(empty list for missing pages)"). -/
def parse_batch_response (data : ApiResponse) (original_batch : List String) :
    List (String × List String) :=
  let afterPages := data.pages.foldl (parsePage data original_batch) []
  original_batch.foldl
    (fun r t => if (r.lookup t).isSome then r else dset r t []) afterPages

/-- State of the client's write-through link cache (`wiki_links:{Title}` keys)
plus a ghost counter of upstream HTTP batch requests issued. -/
structure ClientState where
  cache : List (String × List String)
  upstreamCalls : Nat
deriving Repr, DecidableEq

/-- Number of HTTP calls `_fetch_from_wikipedia` issues for a fetch set:
the titles are grouped into batches of 50, one request per batch. -/
def numBatches (titles : List String) : Nat := (titles.length + 49) / 50

/-- Per-title outcome of the deterministic upstream API: `none` when the API
reports the title missing, otherwise its (already filtered) link list.
`_fetch_from_wikipedia` resolves each requested title through
`_parse_batch_response`, whose final fill-in maps missing titles to `[]`. -/
def fetchFromWikipedia (upstream : String → Option (List String))
    (titles : List String) : List (String × List String) :=
  titles.map (fun t => (t, (upstream t).getD []))

/-- `WikipediaClient.get_links_bulk` (lines 34–83) with a cache service
present: serve cached titles from `wiki_links:{t}`, fetch the rest from the
API, write every fetched entry through to the cache, and merge. -/
def get_links_bulk (upstream : String → Option (List String))
    (page_titles : List String) (st : ClientState) :
    List (String × List String) × ClientState :=
  if page_titles = [] then ([], st)
  else
    let results := (page_titles.filter (fun t => (st.cache.lookup t).isSome)).map
      (fun t => (t, (st.cache.lookup t).getD []))
    let uncached_titles := page_titles.filter (fun t => (st.cache.lookup t).isNone)
    if uncached_titles = [] then (results, st)
    else
      let fresh_results := fetchFromWikipedia upstream uncached_titles
      let newCache := fresh_results.foldl (fun c tv => (tv.1, tv.2) :: c) st.cache
      (results ++ fresh_results,
        { cache := newCache, upstreamCalls := st.upstreamCalls + numBatches uncached_titles })

/-! ## The task runtime (`find_path_task`) -/

/-- Python `str.strip()` on the character data. -/
def pyStrip (s : String) : String :=
  ⟨((s.data.dropWhile Char.isWhitespace).reverse.dropWhile Char.isWhitespace).reverse⟩

/-- `SearchRequest.validate` (models.py): both titles truthy and non-blank
after stripping, and distinct. -/
def validateSearchRequest (start_page end_page : String) : Bool :=
  (start_page ≠ "" ∧ pyStrip start_page ≠ "") ∧
    ((end_page ≠ "" ∧ pyStrip end_page ≠ "") ∧ start_page ≠ end_page)

/-- What `pathfinding_service.find_path` does when the task body reaches it:
succeed, or raise one of the exception kinds the task distinguishes
(`PathNotFoundError`, `InvalidPageError`, a retryable
`requests.RequestException`/`CacheConnectionError`/`WikipediaAPIError`, or
anything else). -/
inductive FindPathOutcome where
  | success
  | pathNotFoundErr
  | invalidPageErr
  | retryableErr
  | unexpectedErr
deriving Repr, DecidableEq

/-- The environment one task run observes: the two `page_exists` answers of
`validate_pages` and the behaviour of the pathfinding call. -/
structure TaskEnv where
  startExists : Bool
  endExists : Bool
  findOutcome : FindPathOutcome
deriving Repr, DecidableEq

/-- Result of one run of the task handler: a returned status dict
(status, error code), or `raise self.retry(...)` with the delay Celery will
wait before the next run. -/
inductive RunResult where
  | done (status : String) (code : Option String)
  | retryDelay (seconds : Nat)
deriving Repr, DecidableEq

/-- Celery's `Task.default_retry_delay` (180 seconds): the inter-run delay
of `raise self.retry(exc=e)` at tasks.py line 188, which passes no
`countdown`.  The decorator's `retry_kwargs={"countdown": 60}` configures
only the autoretry wrapper, and that wrapper never sees the retryable
exceptions because the handler body catches the same exception tuple first
(line 167); the `"next_retry_in": 60` it writes into the task meta is
display data, not the schedule. -/
def celeryDefaultRetryDelay : Nat := 180

/-- One run of the body of `find_path_task` (tasks.py lines 23–205) with
`self.request.retries = retries`: invalid requests, missing pages,
`PathNotFoundError`, `InvalidPageError` and unexpected errors return
`FAILURE` dicts with their codes and are not retried; the retryable
exception kinds re-raise via `self.retry(exc=e)` — scheduled after
`celeryDefaultRetryDelay` — while `retries < max_retries = 3`, and return
`MAX_RETRIES_EXCEEDED` otherwise. -/
def find_path_task_once (start_page end_page : String) (env : TaskEnv)
    (retries : Nat) : RunResult :=
  if validateSearchRequest start_page end_page = false then
    .done "FAILURE" (some "INVALID_REQUEST")
  else if env.startExists = false then .done "FAILURE" (some "PAGE_NOT_FOUND")
  else if env.endExists = false then .done "FAILURE" (some "PAGE_NOT_FOUND")
  else
    match env.findOutcome with
    | .success => .done "SUCCESS" none
    | .pathNotFoundErr => .done "FAILURE" (some "PATH_NOT_FOUND")
    | .invalidPageErr => .done "FAILURE" (some "INVALID_PAGE")
    | .retryableErr =>
      if retries < 3 then .retryDelay celeryDefaultRetryDelay
      else .done "FAILURE" (some "MAX_RETRIES_EXCEEDED")
    | .unexpectedErr => .done "FAILURE" (some "INTERNAL_ERROR")

/-- The Celery retry driver around `find_path_task`: run the handler,
and on `self.retry` wait the delay and run again with `retries + 1`.
Returns the total number of runs, the list of backoffs between runs, and
the final status and code.  Four units of fuel cover every execution
(`retries` starts at 0 and the handler stops retrying at 3). -/
def find_path_task_exec (start_page end_page : String) (env : TaskEnv) :
    Nat → Nat → Nat × List Nat × String × Option String
  | 0, _ => (0, [], "", none)
  | fuel + 1, retries =>
    match find_path_task_once start_page end_page env retries with
    | .done status code => (1, [], status, code)
    | .retryDelay d =>
      let r := find_path_task_exec start_page end_page env fuel (retries + 1)
      (r.1 + 1, d :: r.2.1, r.2.2)

/-- A complete execution of the task as Celery schedules it. -/
def find_path_task_runs (start_page end_page : String) (env : TaskEnv) :
    Nat × List Nat × String × Option String :=
  find_path_task_exec start_page end_page env 4 0

/-- Pages currently on the session queue. -/
def qpages (q : List QItem) : List String := q.map QItem.page

/-- Invariant of the BFS loop state for a search of `endPage` from
`startPage` over `g`.  It holds after seeding and is preserved by every
iteration that does not return:

* the start page is visited with the singleton stored path and the target is
  never visited;
* every stored path is a duplicate-free chain of `g` from the start page to
  its key, avoiding the target, through visited pages only;
* every queue entry is visited with a stored path of length `depth + 1`;
* the queue splits into a block at some depth `D` followed by a block at
  `D + 1` (the BFS frontier shape), carries no duplicate pages, and every
  visited page's stored path has length at most the head depth plus 2;
* every visited page no longer on the queue has been fully expanded: the
  target was not among its links (else the loop would have returned), and
  each link is visited with a stored path at most one longer;
* the ghost push log never repeats a title, logs only visited titles, and
  contains every queued page. -/
structure BfsInv (g : Graph) (startPage endPage : String) (st : Store) : Prop where
  start_vis : startPage ∈ st.visited
  end_not_vis : endPage ∉ st.visited
  start_path : st.paths.lookup startPage = some [startPage]
  path_valid : ∀ t p, st.paths.lookup t = some p →
    t ∈ st.visited ∧ p.head? = some startPage ∧ p.getLast? = some t ∧
      List.Chain' (fun a b => b ∈ linksOf g a) p ∧ p.Nodup ∧ endPage ∉ p ∧
      ∀ x ∈ p, x ∈ st.visited
  vis_path : ∀ t ∈ st.visited, ∃ p, st.paths.lookup t = some p
  queue_path : ∀ it ∈ st.queue, ∃ p, st.paths.lookup it.page = some p ∧
    p.length = it.depth + 1
  queue_split : ∃ D A B, st.queue = A ++ B ∧ (∀ it ∈ A, it.depth = D) ∧
    (∀ it ∈ B, it.depth = D + 1)
  queue_nodup : (qpages st.queue).Nodup
  vis_bound : ∀ it ∈ st.queue.head?, ∀ t ∈ st.visited,
    ∃ p, st.paths.lookup t = some p ∧ p.length ≤ it.depth + 2
  expanded : ∀ t ∈ st.visited, t ∉ qpages st.queue →
    endPage ∉ linksOf g t ∧ ∀ u ∈ linksOf g t, u ∈ st.visited ∧
      ∃ p q, st.paths.lookup t = some p ∧ st.paths.lookup u = some q ∧
        q.length ≤ p.length + 1
  log_nodup : st.pushLog.Nodup
  log_vis : ∀ t ∈ st.pushLog, t ∈ st.visited
  queue_log : ∀ it ∈ st.queue, it.page ∈ st.pushLog

/-- Invariant that holds throughout the processing of the links of the page
`t` just popped at depth `dpop` with stored path `cp`: the analogue of
`BfsInv` while `t` is off the queue but not yet fully expanded (the
`expanded_other` field exempts `t`), with the queue bounded by the popped
depth. -/
structure PLInv (g : Graph) (startPage endPage t : String) (cp : List String)
    (dpop : Nat) (s : Store) : Prop where
  start_vis : startPage ∈ s.visited
  end_not_vis : endPage ∉ s.visited
  start_path : s.paths.lookup startPage = some [startPage]
  path_valid : ∀ x p, s.paths.lookup x = some p →
    x ∈ s.visited ∧ p.head? = some startPage ∧ p.getLast? = some x ∧
      List.Chain' (fun a b => b ∈ linksOf g a) p ∧ p.Nodup ∧ endPage ∉ p ∧
      ∀ y ∈ p, y ∈ s.visited
  vis_path : ∀ x ∈ s.visited, ∃ p, s.paths.lookup x = some p
  queue_path : ∀ it ∈ s.queue, ∃ p, s.paths.lookup it.page = some p ∧
    p.length = it.depth + 1
  queue_split : ∃ A B, s.queue = A ++ B ∧ (∀ it ∈ A, it.depth = dpop) ∧
    (∀ it ∈ B, it.depth = dpop + 1)
  queue_nodup : (qpages s.queue).Nodup
  vis_bound : ∀ x ∈ s.visited, ∃ p, s.paths.lookup x = some p ∧ p.length ≤ dpop + 2
  t_vis : t ∈ s.visited
  t_not_q : t ∉ qpages s.queue
  t_path : s.paths.lookup t = some cp
  cp_len : cp.length = dpop + 1
  expanded_other : ∀ v ∈ s.visited, v ∉ qpages s.queue → v ≠ t →
    endPage ∉ linksOf g v ∧ ∀ u ∈ linksOf g v, u ∈ s.visited ∧
      ∃ p q, s.paths.lookup v = some p ∧ s.paths.lookup u = some q ∧
        q.length ≤ p.length + 1
  log_nodup : s.pushLog.Nodup
  log_vis : ∀ x ∈ s.pushLog, x ∈ s.visited
  queue_log : ∀ it ∈ s.queue, it.page ∈ s.pushLog

/-! ## Theorems -/

/-- A healthy cleanup deletes the session queue, every visited marker, and
every stored path; only the ghost push log survives. -/
theorem cleanup_healthy (st : Store) :
    cleanupSearchState healthyOps st
      = { queue := [], visited := [], paths := [], pushLog := st.pushLog } := rfl

/-- C6: for every non-empty title `s`, `find_shortest_path(s, s)` returns
`{path: [s], nodes_explored: 1}` and leaves the store untouched: no queue
push, no visited or path key, no cleanup — the state is returned as given. -/
theorem same_page_returns_singleton_untouched
    (g : Graph) (pageExists : String → Bool) (maxDepth : Nat) (s : String)
    (hs : s ≠ "") (st : Store) (ops : StoreOps) :
    find_shortest_path g pageExists maxDepth s s st ops = (.ok ⟨[s], 1⟩, st) := by
  unfold find_shortest_path
  rw [if_neg hs, if_neg hs, if_pos rfl]

/-- Witness for C6 at a concrete title and a concrete non-empty store. -/
theorem same_page_returns_singleton_untouched_witness :
    ("A" : String) ≠ "" ∧
      find_shortest_path [] (fun _ => true) 6 "A" "A"
          { queue := [], visited := ["X"], paths := [("X", ["X"])], pushLog := ["X"] }
          healthyOps
        = (.ok ⟨["A"], 1⟩,
            { queue := [], visited := ["X"], paths := [("X", ["X"])], pushLog := ["X"] }) :=
  ⟨by decide, same_page_returns_singleton_untouched [] (fun _ => true) 6 "A" (by decide)
    { queue := [], visited := ["X"], paths := [("X", ["X"])], pushLog := ["X"] } healthyOps⟩

/-- C10: `BidirectionalBFSPathFinder.find_shortest_path` returns exactly the
result (or error) of a freshly constructed `RedisBasedBFSPathFinder` with
default parameters (`max_depth = 6`, no progress callback), whatever
`max_depth` the bidirectional finder itself was constructed with — its own
bound (default 3) has no effect on the output. -/
theorem bidirectional_delegates_to_default_bfs
    (g : Graph) (pageExists : String → Bool) (ownMaxDepth : Nat)
    (startPage endPage : String) (st : Store) (ops : StoreOps) :
    bidirectional_find_shortest_path g pageExists ownMaxDepth startPage endPage st ops
      = find_shortest_path g pageExists 6 startPage endPage st ops := rfl

/-- C7: every `find_shortest_path` call that passes validation clears the
session queue and deletes every visited and path key on every exit (success,
`PathNotFoundError`, or any other exception), and the cleanup implementation
never changes the caller-visible outcome — a cleanup error is swallowed, not
propagated. -/
theorem search_session_cleanup
    (g : Graph) (pageExists : String → Bool) (maxDepth : Nat)
    (startPage endPage : String) (st : Store)
    (hs : startPage ≠ "") (he : endPage ≠ "") (hne : startPage ≠ endPage)
    (hps : pageExists startPage = true) (hpe : pageExists endPage = true) :
    ((find_shortest_path g pageExists maxDepth startPage endPage st healthyOps).2.queue = [] ∧
     (find_shortest_path g pageExists maxDepth startPage endPage st healthyOps).2.visited = [] ∧
     (find_shortest_path g pageExists maxDepth startPage endPage st healthyOps).2.paths = []) ∧
    ∀ ops1 ops2 : StoreOps,
      (find_shortest_path g pageExists maxDepth startPage endPage st ops1).1
        = (find_shortest_path g pageExists maxDepth startPage endPage st ops2).1 := by
  constructor
  · simp only [find_shortest_path, if_neg hs, if_neg he, if_neg hne, hps, hpe]
    rcases hb : bfsLoop g endPage maxDepth (bfsFuel g (seedSearch startPage st)) 0
        (seedSearch startPage st) with ⟨outcome, st1⟩
    cases outcome <;> simp [cleanup_healthy]
  · intro ops1 ops2
    simp only [find_shortest_path, if_neg hs, if_neg he, if_neg hne, hps, hpe]
    rcases hb : bfsLoop g endPage maxDepth (bfsFuel g (seedSearch startPage st)) 0
        (seedSearch startPage st) with ⟨outcome, st1⟩
    cases outcome <;> simp

/-- Witness for C7: a concrete passing call on a one-edge graph. -/
theorem search_session_cleanup_witness :
    (("A" : String) ≠ "" ∧ ("B" : String) ≠ "" ∧ ("A" : String) ≠ "B") ∧
    ((find_shortest_path [("A", ["B"])] (fun _ => true) 6 "A" "B" emptyStore
        healthyOps).2.queue = [] ∧
     (find_shortest_path [("A", ["B"])] (fun _ => true) 6 "A" "B" emptyStore
        healthyOps).2.visited = [] ∧
     (find_shortest_path [("A", ["B"])] (fun _ => true) 6 "A" "B" emptyStore
        healthyOps).2.paths = []) :=
  ⟨⟨by decide, by decide, by decide⟩,
    (search_session_cleanup [("A", ["B"])] (fun _ => true) 6 "A" "B" emptyStore
      (by decide) (by decide) (by decide) rfl rfl).1⟩

/-- Lookup skips a cons whose key differs from the query. -/
theorem lookup_cons_ne {α β : Type} [BEq α] [LawfulBEq α] {k t : α} {b : β}
    {es : List (α × β)} (h : t ≠ k) : ((k, b) :: es).lookup t = es.lookup t := by
  simp [List.lookup_cons, beq_false_of_ne h]

/-- Folding redirect or normalization pairs only ever re-inserts the same
value, so an existing binding to that value survives. -/
theorem lookup_foldl_dset_const (pairs : List (String × String)) (batch : List String)
    (title : String) (v : List String) (r : List (String × List String)) (t : String)
    (h : r.lookup t = some v) :
    ((pairs.foldl
        (fun r ft => if ft.2 = title ∧ ft.1 ∈ batch then dset r ft.1 v else r) r).lookup t)
      = some v := by
  induction pairs generalizing r with
  | nil => exact h
  | cons ft rest ih =>
    simp only [List.foldl_cons]
    apply ih
    by_cases hc : ft.2 = title ∧ ft.1 ∈ batch
    · rw [if_pos hc]
      unfold dset
      by_cases hk : t = ft.1
      · subst hk
        exact List.lookup_cons_self
      · rw [lookup_cons_ne hk]
        exact h
    · rwa [if_neg hc]

/-- The final fill-in of `_parse_batch_response` only adds bindings for
titles that have none, so an existing binding survives. -/
theorem lookup_foldl_fill (batch : List String) (r : List (String × List String))
    (t : String) (v : List String) (h : r.lookup t = some v) :
    ((batch.foldl (fun r x => if (r.lookup x).isSome then r else dset r x []) r).lookup t)
      = some v := by
  induction batch generalizing r with
  | nil => exact h
  | cons x rest ih =>
    simp only [List.foldl_cons]
    apply ih
    by_cases hx : ((r.lookup x).isSome : Bool)
    · rwa [if_pos hx]
    · rw [if_neg hx]
      unfold dset
      by_cases hk : t = x
      · subst hk
        rw [h] at hx
        simp at hx
      · rw [lookup_cons_ne hk]
        exact h

/-- C2 (amended): for a batch response returning one non-missing page, the
page's output list is exactly the API-ordered link list filtered by
"contains no colon, or starts with `List of`" — the prefix check of the code
has no trailing space. -/
theorem parse_keeps_links_without_colon_or_list_of
    (redirects normalized : List (String × String)) (batch : List String)
    (t : String) (links : List String) (ht : t ≠ "") :
    (parse_batch_response ⟨redirects, normalized, [⟨some t, false, links⟩]⟩ batch).lookup t
      = some (links.filter
          (fun l => !(l.data.contains ':') || "List of".data.isPrefixOf l.data)) := by
  unfold parse_batch_response
  simp only [List.foldl_cons, List.foldl_nil]
  apply lookup_foldl_fill
  unfold parsePage
  simp only [if_neg ht, if_neg (by simp : ¬ ((⟨some t, false, links⟩ : ApiPage).missing = true))]
  apply lookup_foldl_dset_const
  apply lookup_foldl_dset_const
  unfold dset keepLink
  exact List.lookup_cons_self

/-- Counterexample to C2 as stated: the code's filter checks the prefix
`"List of"` with no trailing space, so the link `List of:stuff` — which
contains a colon and does not start with `"List of "` — is kept. -/
theorem parse_link_filter_counterexample :
    (parse_batch_response ⟨[], [], [⟨some "T", false, ["List of:stuff"]⟩]⟩ ["T"]).lookup "T"
        = some ["List of:stuff"] ∧
      ("List of:stuff").data.contains ':' = true ∧
      "List of ".data.isPrefixOf ("List of:stuff").data = false := by decide

/-- Witness for C2 at the spec's own example: upstream links
`Category:X, File:Y, List of Z, Normal` yield `[List of Z, Normal]` in
order. -/
theorem parse_keeps_links_without_colon_or_list_of_witness :
    ("T" : String) ≠ "" ∧
      (parse_batch_response
          ⟨[], [], [⟨some "T", false, ["Category:X", "File:Y", "List of Z", "Normal"]⟩]⟩
          ["T"]).lookup "T"
        = some (["Category:X", "File:Y", "List of Z", "Normal"].filter
            (fun l => !(l.data.contains ':') || "List of".data.isPrefixOf l.data)) :=
  ⟨by decide,
    parse_keeps_links_without_colon_or_list_of [] [] ["T"] "T"
      ["Category:X", "File:Y", "List of Z", "Normal"] (by decide)⟩

/-- The cache write-through fold prepends the fetched entries in reverse. -/
theorem foldl_cons_eq_reverse_append (l acc : List (String × List String)) :
    l.foldl (fun c tv => (tv.1, tv.2) :: c) acc = l.reverse ++ acc := by
  induction l generalizing acc with
  | nil => rfl
  | cons x rest ih => simp [List.foldl_cons, ih]

/-- If every binding of `t` in the list carries value `b` and one exists,
the lookup returns `b`. -/
theorem lookup_eq_of_all (l : List (String × List String)) (t : String) (b : List String)
    (hmem : ∃ v, (t, v) ∈ l) (hall : ∀ v, (t, v) ∈ l → v = b) :
    l.lookup t = some b := by
  induction l with
  | nil => obtain ⟨v, hv⟩ := hmem; simp at hv
  | cons kv rest ih =>
    obtain ⟨k, v0⟩ := kv
    by_cases hk : t = k
    · subst hk
      rw [List.lookup_cons_self]
      rw [hall v0 (List.mem_cons_self _ _)]
    · rw [lookup_cons_ne hk]
      apply ih
      · obtain ⟨v, hv⟩ := hmem
        rcases List.mem_cons.mp hv with h | h
        · cases h; exact absurd rfl hk
        · exact ⟨v, h⟩
      · intro v hv
        exact hall v (List.mem_cons_of_mem _ hv)

/-- A `none` lookup means no binding for the key exists at all. -/
theorem not_mem_of_lookup_none {l : List (String × List String)} {t : String}
    {v : List String} (h : l.lookup t = none) : (t, v) ∉ l := by
  intro hmem
  rw [List.lookup_eq_none_iff] at h
  have := h (t, v) hmem
  simp at this

/-- C3 (amended): a title the upstream reports missing IS written through to
the link cache, with the explicit empty list the parse layer assigns to
missing pages. -/
theorem missing_titles_cached_empty
    (upstream : String → Option (List String)) (titles : List String) (st : ClientState)
    (t : String) (ht : t ∈ titles) (hmiss : upstream t = none)
    (hcold : st.cache.lookup t = none) :
    ((get_links_bulk upstream titles st).2.cache.lookup t) = some [] := by
  have htitles : titles ≠ [] := by rintro rfl; simp at ht
  have htu : t ∈ titles.filter (fun x => (st.cache.lookup x).isNone) := by
    rw [List.mem_filter]
    exact ⟨ht, by simp [hcold]⟩
  have hne : titles.filter (fun x => (st.cache.lookup x).isNone) ≠ [] := by
    intro hnil; rw [hnil] at htu; simp at htu
  unfold get_links_bulk
  rw [if_neg htitles, if_neg hne]
  simp only
  unfold fetchFromWikipedia
  rw [foldl_cons_eq_reverse_append]
  apply lookup_eq_of_all
  · refine ⟨(upstream t).getD [], List.mem_append.mpr (Or.inl ?_)⟩
    rw [List.mem_reverse]
    exact List.mem_map.mpr ⟨t, htu, rfl⟩
  · intro v hv
    rcases List.mem_append.mp hv with h | h
    · rw [List.mem_reverse] at h
      obtain ⟨x, _, hx⟩ := List.mem_map.mp h
      have hxt : x = t := congrArg Prod.fst hx
      have hxv : (upstream x).getD [] = v := congrArg Prod.snd hx
      subst hxt
      rw [hmiss] at hxv
      exact hxv.symm
    · exact absurd h (not_mem_of_lookup_none hcold)

/-- Counterexample to C3 as stated: for a missing title the cache goes from
no entry to an explicit `wiki_links:{t} = []` entry — it is not left
unchanged. -/
theorem missing_title_cache_write_counterexample :
    ((⟨[], 0⟩ : ClientState).cache.lookup "M" = none) ∧
      ((get_links_bulk (fun _ => none) ["M"] ⟨[], 0⟩).2.cache.lookup "M" = some []) := by
  decide

/-- Witness for C3 (amended) at a concrete missing title. -/
theorem missing_titles_cached_empty_witness :
    (("M" : String) ∈ ["M"] ∧ ((fun _ => none : String → Option (List String)) "M" = none)) ∧
      ((get_links_bulk (fun _ => none) ["M"] ⟨[], 0⟩).2.cache.lookup "M") = some [] :=
  ⟨⟨by decide, rfl⟩,
    missing_titles_cached_empty (fun _ => none) ["M"] ⟨[], 0⟩ "M" (by decide) rfl rfl⟩

/-- C9: with a cold cache, the first `get_links_bulk([t])` issues exactly one
upstream HTTP call and writes the result through; the second call returns
the same mapping from the cache alone, with no further upstream call and no
state change. -/
theorem cache_hit_idempotent
    (upstream : String → Option (List String)) (t : String) (st0 : ClientState)
    (hcold : st0.cache.lookup t = none) :
    (get_links_bulk upstream [t] (get_links_bulk upstream [t] st0).2).1
        = (get_links_bulk upstream [t] st0).1 ∧
      (get_links_bulk upstream [t] (get_links_bulk upstream [t] st0).2).2
        = (get_links_bulk upstream [t] st0).2 ∧
      (get_links_bulk upstream [t] st0).2.upstreamCalls = st0.upstreamCalls + 1 := by
  have h1 : get_links_bulk upstream [t] st0
      = ([(t, (upstream t).getD [])],
          { cache := (t, (upstream t).getD []) :: st0.cache,
            upstreamCalls := st0.upstreamCalls + 1 }) := by
    unfold get_links_bulk
    rw [if_neg (by simp)]
    simp [List.filter, hcold, fetchFromWikipedia, numBatches]
  have h2 : get_links_bulk upstream [t]
      ({ cache := (t, (upstream t).getD []) :: st0.cache,
         upstreamCalls := st0.upstreamCalls + 1 } : ClientState)
      = ([(t, (upstream t).getD [])],
          { cache := (t, (upstream t).getD []) :: st0.cache,
            upstreamCalls := st0.upstreamCalls + 1 }) := by
    unfold get_links_bulk
    rw [if_neg (by simp)]
    simp [List.filter, List.lookup_cons_self]
  rw [h1]
  simp only
  rw [h2]
  simp

/-- Witness for C9 at a concrete title and upstream. -/
theorem cache_hit_idempotent_witness :
    ((⟨[], 0⟩ : ClientState).cache.lookup "A" = none) ∧
      (get_links_bulk (fun _ => some ["B"]) ["A"]
          (get_links_bulk (fun _ => some ["B"]) ["A"] ⟨[], 0⟩).2).1
        = (get_links_bulk (fun _ => some ["B"]) ["A"] ⟨[], 0⟩).1 ∧
      (get_links_bulk (fun _ => some ["B"]) ["A"]
          (get_links_bulk (fun _ => some ["B"]) ["A"] ⟨[], 0⟩).2).2
        = (get_links_bulk (fun _ => some ["B"]) ["A"] ⟨[], 0⟩).2 ∧
      (get_links_bulk (fun _ => some ["B"]) ["A"] ⟨[], 0⟩).2.upstreamCalls = 0 + 1 :=
  ⟨rfl, cache_hit_idempotent (fun _ => some ["B"]) "A" ⟨[], 0⟩ rfl⟩

/-- C4 (amended): classification of `find_path_task` executions.  An invalid
request (empty or blank or equal titles) fails in one run with code
`INVALID_REQUEST`; a start or end page the upstream reports missing fails in
one run with code `PAGE_NOT_FOUND`; a `PathNotFoundError` or
`InvalidPageError` raised by the pathfinding call fails in one run with
codes `PATH_NOT_FOUND` and `INVALID_PAGE`; a retryable error on every run
yields exactly 4 runs separated by three backoffs of Celery's 180-second
`default_retry_delay` (the handler's `self.retry` passes no countdown, so
the decorator's `countdown=60` never applies), ending with code
`MAX_RETRIES_EXCEEDED`. -/
theorem task_retry_classification (s e : String) (env : TaskEnv) :
    (validateSearchRequest s e = false →
        find_path_task_runs s e env = (1, [], "FAILURE", some "INVALID_REQUEST")) ∧
      (validateSearchRequest s e = true → env.startExists = false →
        find_path_task_runs s e env = (1, [], "FAILURE", some "PAGE_NOT_FOUND")) ∧
      (validateSearchRequest s e = true → env.endExists = false →
        find_path_task_runs s e env = (1, [], "FAILURE", some "PAGE_NOT_FOUND")) ∧
      (validateSearchRequest s e = true → env.startExists = true → env.endExists = true →
        (env.findOutcome = .pathNotFoundErr →
            find_path_task_runs s e env = (1, [], "FAILURE", some "PATH_NOT_FOUND")) ∧
        (env.findOutcome = .invalidPageErr →
            find_path_task_runs s e env = (1, [], "FAILURE", some "INVALID_PAGE")) ∧
        (env.findOutcome = .retryableErr →
            find_path_task_runs s e env
              = (4, [180, 180, 180], "FAILURE", some "MAX_RETRIES_EXCEEDED"))) := by
  refine ⟨?_, ?_, ?_, ?_⟩
  · intro hv
    simp [find_path_task_runs, find_path_task_exec, find_path_task_once, hv]
  · intro hv hs
    simp [find_path_task_runs, find_path_task_exec, find_path_task_once, hv, hs]
  · intro hv he
    rcases hs : env.startExists with _ | _ <;>
      simp [find_path_task_runs, find_path_task_exec, find_path_task_once, hv, hs, he]
  · intro hv hs he
    refine ⟨?_, ?_, ?_⟩ <;> intro ho <;>
      simp [find_path_task_runs, find_path_task_exec, find_path_task_once,
        celeryDefaultRetryDelay, hv, hs, he, ho]

/-- Counterexample to C4 as stated: an empty start title fails with code
`INVALID_REQUEST`, and a missing start page fails with code
`PAGE_NOT_FOUND` — neither run produces the claimed `INVALID_PAGE` — and a
persistently retryable error spaces its 4 runs by Celery's 180-second
default retry delay, not the claimed 60 seconds. -/
theorem task_failure_code_counterexample :
    find_path_task_runs "" "B" ⟨true, true, .success⟩
        = (1, [], "FAILURE", some "INVALID_REQUEST") ∧
      find_path_task_runs "A" "B" ⟨false, true, .success⟩
        = (1, [], "FAILURE", some "PAGE_NOT_FOUND") ∧
      ("INVALID_REQUEST" : String) ≠ "INVALID_PAGE" ∧
      ("PAGE_NOT_FOUND" : String) ≠ "INVALID_PAGE" ∧
      find_path_task_runs "A" "B" ⟨true, true, .retryableErr⟩
        = (4, [180, 180, 180], "FAILURE", some "MAX_RETRIES_EXCEEDED") ∧
      (180 : Nat) ≠ 60 := by decide

/-- Witness for C4 (amended): a concrete always-retryable environment runs
4 times with three 180-second backoffs, and a concrete `InvalidPageError`
environment runs once. -/
theorem task_retry_classification_witness :
    (validateSearchRequest "A" "B" = true ∧
      find_path_task_runs "A" "B" ⟨true, true, .retryableErr⟩
        = (4, [180, 180, 180], "FAILURE", some "MAX_RETRIES_EXCEEDED")) ∧
    find_path_task_runs "A" "B" ⟨true, true, .invalidPageErr⟩
        = (1, [], "FAILURE", some "INVALID_PAGE") :=
  ⟨⟨by decide,
      ((task_retry_classification "A" "B" ⟨true, true, .retryableErr⟩).2.2.2
        (by decide) rfl rfl).2.2 rfl⟩,
    ((task_retry_classification "A" "B" ⟨true, true, .invalidPageErr⟩).2.2.2
      (by decide) rfl rfl).2.1 rfl⟩

/-- Head of an append with a non-empty left part. -/
theorem head?_append_ne_nil {α : Type} (l l' : List α) (h : l ≠ []) :
    (l ++ l').head? = l.head? := by
  cases l with
  | nil => exact absurd rfl h
  | cons a t => rfl

/-- First-occurrence split of a member. -/
theorem exists_first_split {α : Type} [DecidableEq α] {a : α} {l : List α} (h : a ∈ l) :
    ∃ s t, l = s ++ a :: t ∧ a ∉ s := by
  induction l with
  | nil => simp at h
  | cons b rest ih =>
    by_cases hb : a = b
    · subst hb
      exact ⟨[], rest, rfl, by simp⟩
    · rcases List.mem_cons.mp h with h' | h'
      · exact absurd h' hb
      · obtain ⟨s, t, rfl, hs⟩ := ih h'
        exact ⟨b :: s, t, rfl, by simp [hs, hb]⟩

/-- Any path to `e` from `s ≠ e` truncates to one of at most the same length
that meets `e` only at its last position. -/
theorem path_truncate (g : Graph) (p : List String) (s e : String)
    (hp : isPathFromTo g p s e) (hne : s ≠ e) :
    ∃ pre, pre ≠ [] ∧ e ∉ pre ∧ isPathFromTo g (pre ++ [e]) s e ∧
      (pre ++ [e]).length ≤ p.length := by
  obtain ⟨hhead, hlast, hchain⟩ := hp
  have hmem : e ∈ p := List.mem_of_getLast?_eq_some hlast
  obtain ⟨pre, suf, rfl, hpre⟩ := exists_first_split hmem
  have hpren : pre ≠ [] := by
    rintro rfl
    simp at hhead
    exact hne (by rw [hhead])
  refine ⟨pre, hpren, hpre, ⟨?_, ?_, ?_⟩, ?_⟩
  · rw [head?_append_ne_nil _ _ hpren, ← head?_append_ne_nil pre (e :: suf) hpren]
    exact hhead
  · exact List.getLast?_concat pre
  · have := (List.chain'_append).mp hchain
    refine (List.chain'_append).mpr ⟨this.1, List.chain'_singleton e, ?_⟩
    intro x hx y hy
    have := this.2.2 x hx e (by simp)
    simp at hy
    subst hy
    exact this
  · simp

/-- Cover lemma: under the invariant, with every queued depth at least `Db`,
every target-avoiding path from the start of at most `Db` hops ends in a
visited page whose stored path is no longer than the path itself. -/
theorem bfs_cover (g : Graph) (startPage endPage : String) (st : Store)
    (hinv : BfsInv g startPage endPage st)
    (Db : Nat) (hq : ∀ it ∈ st.queue, Db ≤ it.depth) :
    ∀ (p : List String) (u : String),
      isPathFromTo g p startPage u → endPage ∉ p → p.length ≤ Db + 1 →
      u ∈ st.visited ∧ ∃ q, st.paths.lookup u = some q ∧ q.length ≤ p.length := by
  intro p
  induction p using List.reverseRecOn with
  | nil =>
    intro u hp _ _
    obtain ⟨hhead, _, _⟩ := hp
    simp at hhead
  | append_singleton p0 a ih =>
    intro u hp hep hbound
    obtain ⟨hhead, hlast, hchain⟩ := hp
    have hau : a = u := by
      rw [List.getLast?_concat] at hlast
      exact Option.some.inj hlast
    subst hau
    by_cases h0 : p0 = []
    · subst h0
      have hus : a = startPage := by simpa using hhead
      rw [hus]
      exact ⟨hinv.start_vis, [startPage], hinv.start_path, by simp⟩
    · have hvlast : ∃ v, p0.getLast? = some v := by
        cases hh : p0.getLast?
        · rw [List.getLast?_eq_none_iff] at hh
          exact absurd hh h0
        · exact ⟨_, rfl⟩
      obtain ⟨v, hv⟩ := hvlast
      have hsplit := (List.chain'_append).mp hchain
      have hedge : a ∈ linksOf g v := hsplit.2.2 v hv a (by simp)
      have hp0 : isPathFromTo g p0 startPage v := by
        refine ⟨?_, hv, hsplit.1⟩
        rw [← head?_append_ne_nil p0 [a] h0]
        exact hhead
      have hep0 : endPage ∉ p0 := fun h => hep (List.mem_append.mpr (Or.inl h))
      have hb0 : p0.length ≤ Db := by
        have : (p0 ++ [a]).length = p0.length + 1 := by simp
        omega
      obtain ⟨hvvis, qv, hqv, hqvlen⟩ := ih v hp0 hep0 (by omega)
      have hqvpos : 1 ≤ qv.length := by
        obtain ⟨_, hh, _, _, _, _, _⟩ := hinv.path_valid v qv hqv
        cases qv
        · simp at hh
        · simp
      have hvproc : v ∉ qpages st.queue := by
        intro hmem
        obtain ⟨it, hit, hitp⟩ := List.mem_map.mp hmem
        obtain ⟨pv, hpv, hpvlen⟩ := hinv.queue_path it hit
        rw [hitp] at hpv
        rw [hqv] at hpv
        have hpq : pv = qv := Option.some.inj hpv.symm
        rw [hpq] at hpvlen
        have := hq it hit
        omega
      obtain ⟨_, hexp⟩ := hinv.expanded v hvvis hvproc
      obtain ⟨huvis, p', q', hp', hq', hlen'⟩ := hexp a hedge
      rw [hqv] at hp'
      have hpq : p' = qv := Option.some.inj hp'.symm
      subst hpq
      refine ⟨huvis, q', hq', ?_⟩
      have : (p0 ++ [a]).length = p0.length + 1 := by simp
      omega

/-- Under the invariant, a target-avoiding path of at most `Db - 1` hops (in
the form `p.length ≤ Db`) ends in a page that is both visited and already
fully expanded, so the target is not among its links. -/
theorem bfs_cover_processed (g : Graph) (startPage endPage : String) (st : Store)
    (hinv : BfsInv g startPage endPage st)
    (Db : Nat) (hq : ∀ it ∈ st.queue, Db ≤ it.depth)
    (p : List String) (u : String)
    (hp : isPathFromTo g p startPage u) (hep : endPage ∉ p) (hbound : p.length ≤ Db) :
    endPage ∉ linksOf g u := by
  obtain ⟨huvis, q, hqlook, hqlen⟩ :=
    bfs_cover g startPage endPage st hinv Db hq p u hp hep (by omega)
  have hqpos : 1 ≤ q.length := by
    obtain ⟨_, hh, _, _, _, _, _⟩ := hinv.path_valid u q hqlook
    cases q
    · simp at hh
    · simp
  have huproc : u ∉ qpages st.queue := by
    intro hmem
    obtain ⟨it, hit, hitp⟩ := List.mem_map.mp hmem
    obtain ⟨pv, hpv, hpvlen⟩ := hinv.queue_path it hit
    rw [hitp, hqlook] at hpv
    have hpq : pv = q := Option.some.inj hpv.symm
    rw [hpq] at hpvlen
    have := hq it hit
    omega
  exact (hinv.expanded u huvis huproc).1

/-- Under the invariant with every queued depth at least `Db`, no path from
the start reaches the target within `Db` hops. -/
theorem bfs_no_short_path (g : Graph) (startPage endPage : String) (st : Store)
    (hinv : BfsInv g startPage endPage st)
    (Db : Nat) (hq : ∀ it ∈ st.queue, Db ≤ it.depth)
    (hne : startPage ≠ endPage)
    (q : List String) (hqp : isPathFromTo g q startPage endPage) :
    ¬ (q.length ≤ Db + 1) := by
  intro hlen
  obtain ⟨pre, hpren, hpre, hq', hqlen'⟩ := path_truncate g q startPage endPage hqp hne
  have hvlast : ∃ v, pre.getLast? = some v := by
    cases hh : pre.getLast?
    · rw [List.getLast?_eq_none_iff] at hh
      exact absurd hh hpren
    · exact ⟨_, rfl⟩
  obtain ⟨v, hv⟩ := hvlast
  obtain ⟨hhead, _, hchain⟩ := hq'
  have hsplit := (List.chain'_append).mp hchain
  have hedge : endPage ∈ linksOf g v := hsplit.2.2 v hv endPage (by simp)
  have hppre : isPathFromTo g pre startPage v := by
    refine ⟨?_, hv, hsplit.1⟩
    rw [← head?_append_ne_nil pre [endPage] hpren]
    exact hhead
  have hprelen : pre.length ≤ Db := by
    have : (pre ++ [endPage]).length = pre.length + 1 := by simp
    omega
  exact bfs_cover_processed g startPage endPage st hinv Db hq pre v hppre hpre hprelen hedge

/-- Under the invariant, every entry of a non-empty queue has depth at least
the head's depth. -/
theorem queue_depth_ge_head (g : Graph) (startPage endPage : String) (st : Store)
    (hinv : BfsInv g startPage endPage st) (it0 : QItem) (rest : List QItem)
    (hq : st.queue = it0 :: rest) :
    ∀ it ∈ st.queue, it0.depth ≤ it.depth := by
  obtain ⟨D, A, B, hAB, hA, hB⟩ := hinv.queue_split
  intro it hit
  rw [hq] at hAB
  cases A with
  | nil =>
    simp at hAB
    have h0 : it0 ∈ B := by rw [← hAB]; simp
    have hmem : it ∈ B := by rw [← hAB, ← hq]; exact hit
    rw [hB it0 h0, hB it hmem]
  | cons a A' =>
    rw [List.cons_append] at hAB
    injection hAB with ha hrest
    have h0 : it0.depth = D := by rw [ha]; exact hA a (by simp)
    have hmem : it ∈ it0 :: rest := by rw [← hq]; exact hit
    rcases List.mem_cons.mp hmem with h | h
    · rw [h]
    · rw [hrest] at h
      rcases List.mem_append.mp h with h' | h'
      · have := hA it (List.mem_cons_of_mem a h')
        omega
      · have := hB it h'
        omega

/-- Every link of any page lies in `allTargets`. -/
theorem mem_allTargets_of_mem_linksOf {g : Graph} {t l : String}
    (h : l ∈ linksOf g t) : l ∈ allTargets g := by
  unfold linksOf at h
  cases hl : g.lookup t with
  | none => rw [hl] at h; simp at h
  | some links =>
    rw [hl] at h
    simp at h
    obtain ⟨l1, l2, heq, _⟩ := List.lookup_eq_some_iff.mp hl
    unfold allTargets
    rw [List.mem_flatten]
    refine ⟨links, ?_, h⟩
    rw [List.mem_map]
    refine ⟨(t, links), ?_, rfl⟩
    rw [heq]
    simp

/-- Unfolding equation: out of fuel. -/
theorem bfsLoop_zero (g : Graph) (e : String) (maxD n : Nat) (st : Store) :
    bfsLoop g e maxD 0 n st = (.fuelOut, st) := rfl

/-- Unfolding equation: drained queue. -/
theorem bfsLoop_nil (g : Graph) (e : String) (maxD fuel n : Nat) (st : Store)
    (h : st.queue = []) : bfsLoop g e maxD (fuel + 1) n st = (.notFound, st) := by
  unfold bfsLoop
  rw [h]

/-- Unfolding equation: depth limit break. -/
theorem bfsLoop_break (g : Graph) (e : String) (maxD fuel n : Nat) (st : Store)
    (item : QItem) (rest : List QItem) (h : st.queue = item :: rest)
    (hd : maxD < item.depth) :
    bfsLoop g e maxD (fuel + 1) n st = (.notFound, { st with queue := rest }) := by
  unfold bfsLoop
  rw [h]
  simp only [if_pos hd]

/-- Unfolding equation: missing stored path, vertex skipped. -/
theorem bfsLoop_skip_none (g : Graph) (e : String) (maxD fuel n : Nat) (st : Store)
    (item : QItem) (rest : List QItem) (h : st.queue = item :: rest)
    (hd : ¬ maxD < item.depth) (hl : st.paths.lookup item.page = none) :
    bfsLoop g e maxD (fuel + 1) n st
      = bfsLoop g e maxD fuel (n + 1) { st with queue := rest } := by
  conv_lhs => rw [bfsLoop]
  rw [h]
  simp only [if_neg hd]
  have : ({ st with queue := rest } : Store).paths = st.paths := rfl
  rw [this, hl]

/-- Unfolding equation: falsy (empty) stored path, vertex skipped. -/
theorem bfsLoop_skip_empty (g : Graph) (e : String) (maxD fuel n : Nat) (st : Store)
    (item : QItem) (rest : List QItem) (h : st.queue = item :: rest)
    (hd : ¬ maxD < item.depth) (hl : st.paths.lookup item.page = some []) :
    bfsLoop g e maxD (fuel + 1) n st
      = bfsLoop g e maxD fuel (n + 1) { st with queue := rest } := by
  conv_lhs => rw [bfsLoop]
  rw [h]
  simp only [if_neg hd]
  have : ({ st with queue := rest } : Store).paths = st.paths := rfl
  rw [this, hl]
  simp

/-- Unfolding equation: link expansion step. -/
theorem bfsLoop_step (g : Graph) (e : String) (maxD fuel n : Nat) (st : Store)
    (item : QItem) (rest : List QItem) (cp : List String) (h : st.queue = item :: rest)
    (hd : ¬ maxD < item.depth) (hl : st.paths.lookup item.page = some cp) (hcp : cp ≠ []) :
    bfsLoop g e maxD (fuel + 1) n st
      = match processLinks e cp item.depth (linksOf g item.page) { st with queue := rest } with
        | (some p, s1) => (.found p (n + 1), s1)
        | (none, s1) => bfsLoop g e maxD fuel (n + 1) s1 := by
  conv_lhs => rw [bfsLoop]
  rw [h]
  simp only [if_neg hd]
  have : ({ st with queue := rest } : Store).paths = st.paths := rfl
  rw [this, hl]
  simp only [if_neg hcp]

/-- Each link processed either leaves the measure alone or trades one fresh
visited title for one queue entry, so the measure never grows. -/
theorem processLinks_measure (g : Graph) (e : String) (cp : List String) (d : Nat) :
    ∀ (links : List String) (s : Store), (∀ l ∈ links, l ∈ allTargets g) →
      bfsMeasure g (processLinks e cp d links s).2 ≤ bfsMeasure g s := by
  intro links
  induction links with
  | nil => intro s _; simp [processLinks]
  | cons link rest ih =>
    intro s hsub
    by_cases hle : link = e
    · simp [processLinks, hle]
    · by_cases hv : s.visited.contains link
      · simp only [processLinks, if_neg hle, if_pos hv]
        exact ih s (fun l hl => hsub l (List.mem_cons_of_mem _ hl))
      · simp only [processLinks, if_neg hle, if_neg hv]
        refine le_trans (ih _ (fun l hl => hsub l (List.mem_cons_of_mem _ hl))) ?_
        have hlA : link ∈ (allTargets g).toFinset := by
          rw [List.mem_toFinset]
          exact hsub link (List.mem_cons_self _ _)
        have hlV : link ∉ s.visited.toFinset := by
          rw [List.mem_toFinset]
          intro hmem
          simp at hv
          exact hv hmem
        have hcard : ((allTargets g).toFinset \ (link :: s.visited).toFinset).card + 1
            ≤ ((allTargets g).toFinset \ s.visited.toFinset).card := by
          have hsub1 : ((allTargets g).toFinset \ (link :: s.visited).toFinset)
              ⊂ ((allTargets g).toFinset \ s.visited.toFinset) := by
            constructor
            · intro x hx
              rw [Finset.mem_sdiff] at hx ⊢
              refine ⟨hx.1, fun hxv => hx.2 ?_⟩
              rw [List.toFinset_cons, Finset.mem_insert]
              exact Or.inr hxv
            · intro hsup
              have : link ∈ (allTargets g).toFinset \ s.visited.toFinset :=
                Finset.mem_sdiff.mpr ⟨hlA, hlV⟩
              have hmem := hsup this
              rw [Finset.mem_sdiff, List.toFinset_cons, Finset.mem_insert] at hmem
              exact hmem.2 (Or.inl rfl)
          have := Finset.card_lt_card hsub1
          omega
        have heq : bfsMeasure g
              ({ queue := s.queue ++ [⟨link, d + 1⟩], visited := link :: s.visited,
                 paths := (link, cp ++ [link]) :: s.paths,
                 pushLog := link :: s.pushLog } : Store)
            = s.queue.length + 1
              + ((allTargets g).toFinset \ (link :: s.visited).toFinset).card := by
          unfold bfsMeasure unvisitedCount
          simp
        rw [heq]
        unfold bfsMeasure unvisitedCount
        omega

/-- With fuel strictly above the measure the loop never runs out. -/
theorem bfsLoop_ne_fuelOut (g : Graph) (e : String) (maxD : Nat) :
    ∀ (fuel n : Nat) (st : Store), bfsMeasure g st < fuel →
      (bfsLoop g e maxD fuel n st).1 ≠ .fuelOut := by
  intro fuel
  induction fuel with
  | zero => intro n st h; omega
  | succ f ih =>
    intro n st h
    cases hq : st.queue with
    | nil => rw [bfsLoop_nil g e maxD f n st hq]; simp
    | cons item rest =>
      have hmrest : bfsMeasure g { st with queue := rest } + 1 = bfsMeasure g st := by
        have hv : unvisitedCount g { st with queue := rest } = unvisitedCount g st := rfl
        have hqlen : ({ st with queue := rest } : Store).queue.length = rest.length := rfl
        unfold bfsMeasure
        rw [hv, hqlen, hq]
        simp only [List.length_cons]
        omega
      by_cases hd : maxD < item.depth
      · rw [bfsLoop_break g e maxD f n st item rest hq hd]; simp
      · cases hl : st.paths.lookup item.page with
        | none =>
          rw [bfsLoop_skip_none g e maxD f n st item rest hq hd hl]
          exact ih (n + 1) _ (by omega)
        | some cp =>
          by_cases hcp : cp = []
          · subst hcp
            rw [bfsLoop_skip_empty g e maxD f n st item rest hq hd hl]
            exact ih (n + 1) _ (by omega)
          · rw [bfsLoop_step g e maxD f n st item rest cp hq hd hl hcp]
            rcases hpl : processLinks e cp item.depth (linksOf g item.page)
                { st with queue := rest } with ⟨res, s1⟩
            have hmeas : bfsMeasure g s1 ≤ bfsMeasure g { st with queue := rest } := by
              have := processLinks_measure g e cp item.depth (linksOf g item.page)
                { st with queue := rest } (fun l hl' => mem_allTargets_of_mem_linksOf hl')
              rw [hpl] at this
              exact this
            cases res with
            | some p => simp
            | none => exact ih (n + 1) s1 (by omega)

/-- The chosen fuel strictly dominates the measure. -/
theorem bfsMeasure_lt_bfsFuel (g : Graph) (st : Store) :
    bfsMeasure g st < bfsFuel g st := by
  unfold bfsMeasure bfsFuel unvisitedCount
  have h1 : ((allTargets g).toFinset \ st.visited.toFinset).card
      ≤ (allTargets g).toFinset.card := Finset.card_le_card (Finset.sdiff_subset)
  have h2 : (allTargets g).toFinset.card = (allTargets g).dedup.length :=
    List.card_toFinset (allTargets g)
  omega

/-- Queue pages distribute over append. -/
theorem qpages_append (q1 q2 : List QItem) : qpages (q1 ++ q2) = qpages q1 ++ qpages q2 :=
  List.map_append _ _ _

/-- Under the processing invariant every queued depth is at least the popped
depth. -/
theorem plinv_queue_depth (g : Graph) (startPage endPage t : String) (cp : List String)
    (dpop : Nat) (s : Store) (hinv : PLInv g startPage endPage t cp dpop s) :
    ∀ it ∈ s.queue, dpop ≤ it.depth := by
  obtain ⟨A, B, hAB, hA, hB⟩ := hinv.queue_split
  intro it hit
  rw [hAB] at hit
  rcases List.mem_append.mp hit with h | h
  · rw [hA it h]
  · rw [hB it h]
    omega

/-- Under the processing invariant every queued page is visited. -/
theorem plinv_qpage_vis (g : Graph) (startPage endPage t : String) (cp : List String)
    (dpop : Nat) (s : Store) (hinv : PLInv g startPage endPage t cp dpop s) :
    ∀ it ∈ s.queue, it.page ∈ s.visited := by
  intro it hit
  obtain ⟨p, hp, _⟩ := hinv.queue_path it hit
  exact (hinv.path_valid it.page p hp).1

/-- Marking an unvisited, non-target link of the popped page as visited,
storing its extended path and enqueueing it at the next depth preserves the
processing invariant. -/
theorem plinv_push (g : Graph) (startPage endPage t : String) (cp : List String)
    (dpop : Nat) (s : Store) (hinv : PLInv g startPage endPage t cp dpop s)
    (link : String) (hlink : link ∈ linksOf g t) (hnv : link ∉ s.visited)
    (hne : link ≠ endPage) :
    PLInv g startPage endPage t cp dpop
      { queue := s.queue ++ [⟨link, dpop + 1⟩], visited := link :: s.visited,
        paths := (link, cp ++ [link]) :: s.paths, pushLog := link :: s.pushLog } := by
  obtain ⟨htv, hcphead, hcplast, hcpchain, hcpnodup, hcpend, hcpvis⟩ :=
    hinv.path_valid t cp hinv.t_path
  have hcpne : cp ≠ [] := by
    intro h
    rw [h] at hcphead
    simp at hcphead
  have hlinkcp : link ∉ cp := fun h => hnv (hcpvis link h)
  have hnphead : (cp ++ [link]).head? = some startPage := by
    rw [head?_append_ne_nil cp [link] hcpne]
    exact hcphead
  have hnplast : (cp ++ [link]).getLast? = some link := List.getLast?_concat cp
  have hnpchain : List.Chain' (fun a b => b ∈ linksOf g a) (cp ++ [link]) := by
    refine (List.chain'_append).mpr
      ⟨hcpchain, List.chain'_singleton link, ?_⟩
    intro x hx y hy
    simp at hy
    subst hy
    rw [hcplast] at hx
    have hxt : x = t := by
      have := hx
      simp at this
      exact this.symm
    rw [hxt]
    exact hlink
  have hnpnodup : (cp ++ [link]).Nodup := by
    rw [List.nodup_append]
    exact ⟨hcpnodup, List.nodup_singleton link, by simpa using hlinkcp⟩
  have hnpend : endPage ∉ cp ++ [link] := by
    rw [List.mem_append]
    rintro (h | h)
    · exact hcpend h
    · simp at h
      exact hne h.symm
  have hnplen : (cp ++ [link]).length = dpop + 2 := by
    rw [List.length_append, hinv.cp_len]
    simp
  have hlinkstart : link ≠ startPage := fun h => hnv (h ▸ hinv.start_vis)
  have hlinkt : link ≠ t := fun h => hnv (h ▸ hinv.t_vis)
  have hlinklog : link ∉ s.pushLog := fun h => hnv (hinv.log_vis link h)
  have hvis_ne : ∀ x ∈ s.visited, x ≠ link := fun x hx h => hnv (h ▸ hx)
  refine ⟨?_, ?_, ?_, ?_, ?_, ?_, ?_, ?_, ?_, ?_, ?_, ?_, ?_, ?_, ?_, ?_, ?_⟩
  · exact List.mem_cons_of_mem _ hinv.start_vis
  · intro h
    rcases List.mem_cons.mp h with h' | h'
    · exact hne h'.symm
    · exact hinv.end_not_vis h'
  · exact (lookup_cons_ne (Ne.symm hlinkstart)).trans hinv.start_path
  · intro x p hx
    have hx' : ((link, cp ++ [link]) :: s.paths).lookup x = some p := hx
    by_cases hxl : x = link
    · rw [hxl, List.lookup_cons_self] at hx'
      have hp : p = cp ++ [link] := (Option.some.inj hx').symm
      subst hp
      rw [hxl]
      refine ⟨List.mem_cons_self _ _, hnphead, hnplast, hnpchain, hnpnodup, hnpend, ?_⟩
      intro y hy
      rcases List.mem_append.mp hy with h | h
      · exact List.mem_cons_of_mem _ (hcpvis y h)
      · simp at h
        subst h
        exact List.mem_cons_self _ _
    · rw [lookup_cons_ne hxl] at hx'
      obtain ⟨h1, h2, h3, h4, h5, h6, h7⟩ := hinv.path_valid x p hx'
      exact ⟨List.mem_cons_of_mem _ h1, h2, h3, h4, h5, h6,
        fun y hy => List.mem_cons_of_mem _ (h7 y hy)⟩
  · intro x hx
    rcases List.mem_cons.mp hx with h | h
    · exact ⟨cp ++ [link], by rw [h]; exact List.lookup_cons_self⟩
    · obtain ⟨p, hp⟩ := hinv.vis_path x h
      exact ⟨p, (lookup_cons_ne (hvis_ne x h)).trans hp⟩
  · intro it hit
    have hit' : it ∈ s.queue ++ [(⟨link, dpop + 1⟩ : QItem)] := hit
    rcases List.mem_append.mp hit' with h | h
    · obtain ⟨p, hp, hplen⟩ := hinv.queue_path it h
      have hpagev : it.page ∈ s.visited :=
        plinv_qpage_vis g startPage endPage t cp dpop s hinv it h
      exact ⟨p, (lookup_cons_ne (hvis_ne it.page hpagev)).trans hp, hplen⟩
    · simp at h
      subst h
      exact ⟨cp ++ [link], List.lookup_cons_self, hnplen⟩
  · obtain ⟨A, B, hAB, hA, hB⟩ := hinv.queue_split
    refine ⟨A, B ++ [⟨link, dpop + 1⟩], ?_, hA, ?_⟩
    · show s.queue ++ [(⟨link, dpop + 1⟩ : QItem)] = A ++ (B ++ [⟨link, dpop + 1⟩])
      rw [hAB, List.append_assoc]
    · intro it hit
      rcases List.mem_append.mp hit with h | h
      · exact hB it h
      · simp at h
        subst h
        rfl
  · show (qpages (s.queue ++ [⟨link, dpop + 1⟩])).Nodup
    rw [qpages_append, List.nodup_append]
    refine ⟨hinv.queue_nodup, List.nodup_singleton _, ?_⟩
    intro x hx
    obtain ⟨it, hit, hpg⟩ := List.mem_map.mp hx
    have hxv : x ∈ s.visited :=
      hpg ▸ plinv_qpage_vis g startPage endPage t cp dpop s hinv it hit
    simp [qpages]
    exact hvis_ne x hxv
  · intro x hx
    rcases List.mem_cons.mp hx with h | h
    · exact ⟨cp ++ [link], by rw [h]; exact List.lookup_cons_self, le_of_eq hnplen⟩
    · obtain ⟨p, hp, hlen⟩ := hinv.vis_bound x h
      exact ⟨p, (lookup_cons_ne (hvis_ne x h)).trans hp, hlen⟩
  · exact List.mem_cons_of_mem _ hinv.t_vis
  · show t ∉ qpages (s.queue ++ [⟨link, dpop + 1⟩])
    rw [qpages_append, List.mem_append]
    rintro (h | h)
    · exact hinv.t_not_q h
    · simp [qpages] at h
      exact hlinkt h.symm
  · exact (lookup_cons_ne (Ne.symm hlinkt)).trans hinv.t_path
  · exact hinv.cp_len
  · intro v hv hvq hvt
    have hvq' : v ∉ qpages s.queue := by
      intro hmem
      apply hvq
      show v ∈ qpages (s.queue ++ [⟨link, dpop + 1⟩])
      rw [qpages_append, List.mem_append]
      exact Or.inl hmem
    have hvl : v ≠ link := by
      intro h
      apply hvq
      show v ∈ qpages (s.queue ++ [⟨link, dpop + 1⟩])
      rw [qpages_append, List.mem_append]
      right
      simp [qpages, h]
    have hvvis : v ∈ s.visited := by
      rcases List.mem_cons.mp hv with h | h
      · exact absurd h hvl
      · exact h
    obtain ⟨hend, hexp⟩ := hinv.expanded_other v hvvis hvq' hvt
    refine ⟨hend, ?_⟩
    intro u hu
    obtain ⟨huv, p, q, hp, hq, hlen⟩ := hexp u hu
    exact ⟨List.mem_cons_of_mem _ huv,
      p, q, (lookup_cons_ne (hvis_ne v hvvis)).trans hp,
      (lookup_cons_ne (hvis_ne u huv)).trans hq, hlen⟩
  · exact List.nodup_cons.mpr ⟨hlinklog, hinv.log_nodup⟩
  · intro x hx
    rcases List.mem_cons.mp hx with h | h
    · subst h
      exact List.mem_cons_self _ _
    · exact List.mem_cons_of_mem _ (hinv.log_vis x h)
  · intro it hit
    have hit' : it ∈ s.queue ++ [(⟨link, dpop + 1⟩ : QItem)] := hit
    rcases List.mem_append.mp hit' with h | h
    · exact List.mem_cons_of_mem _ (hinv.queue_log it h)
    · simp at h
      subst h
      exact List.mem_cons_self _ _

/-- Correctness of the inner link loop: starting from the processing
invariant with the already handled links `done` accounted for, the loop
either returns `current_path + [end]` having seen the target among the
links, or finishes with the full invariant restored and the target absent
from the links. -/
theorem processLinks_spec (g : Graph) (startPage endPage t : String) (cp : List String)
    (dpop : Nat) :
    ∀ (links done : List String) (s : Store),
      PLInv g startPage endPage t cp dpop s →
      done ++ links = linksOf g t →
      endPage ∉ done →
      (∀ u ∈ done, u ∈ s.visited ∧ ∃ q, s.paths.lookup u = some q ∧ q.length ≤ dpop + 2) →
      (match processLinks endPage cp dpop links s with
       | (some p, s') => p = cp ++ [endPage] ∧ endPage ∈ linksOf g t ∧
           PLInv g startPage endPage t cp dpop s'
       | (none, s') => BfsInv g startPage endPage s' ∧ endPage ∉ linksOf g t) := by
  intro links
  induction links with
  | nil =>
    intro done s hinv hdone hedone hdoneU
    simp only [processLinks]
    rw [List.append_nil] at hdone
    subst hdone
    constructor
    · refine ⟨hinv.start_vis, hinv.end_not_vis, hinv.start_path, hinv.path_valid,
        hinv.vis_path, hinv.queue_path, ?_, hinv.queue_nodup, ?_, ?_,
        hinv.log_nodup, hinv.log_vis, hinv.queue_log⟩
      · obtain ⟨A, B, hAB, hA, hB⟩ := hinv.queue_split
        exact ⟨dpop, A, B, hAB, hA, hB⟩
      · intro it hit x hx
        obtain ⟨p, hp, hlen⟩ := hinv.vis_bound x hx
        have hitq : it ∈ s.queue := List.mem_of_mem_head? hit
        have hd := plinv_queue_depth g startPage endPage t cp dpop s hinv it hitq
        exact ⟨p, hp, by omega⟩
      · intro x hx hxq
        by_cases hxt : x = t
        · refine ⟨by rw [hxt]; exact hedone, ?_⟩
          intro u hu
          rw [hxt] at hu
          obtain ⟨huv, q, hq, hqlen⟩ := hdoneU u hu
          refine ⟨huv, cp, q, by rw [hxt]; exact hinv.t_path, hq, ?_⟩
          have := hinv.cp_len
          omega
        · exact hinv.expanded_other x hx hxq hxt
    · exact hedone
  | cons link rest ih =>
    intro done s hinv hdone hedone hdoneU
    by_cases hle : link = endPage
    · simp only [processLinks, if_pos hle]
      refine ⟨by rw [hle], ?_, hinv⟩
      rw [← hdone, hle]
      simp
    · have hdone' : (done ++ [link]) ++ rest = linksOf g t := by
        rw [List.append_assoc]
        simpa using hdone
      have hedone' : endPage ∉ done ++ [link] := by
        rw [List.mem_append]
        rintro (h | h)
        · exact hedone h
        · simp at h
          exact hle h.symm
      by_cases hv : s.visited.contains link
      · simp only [processLinks, if_neg hle, if_pos hv]
        have hlv : link ∈ s.visited := by simpa using hv
        apply ih (done ++ [link]) s hinv hdone' hedone'
        intro u hu
        rcases List.mem_append.mp hu with h | h
        · exact hdoneU u h
        · simp at h
          rw [h]
          exact ⟨hlv, hinv.vis_bound link hlv⟩
      · simp only [processLinks, if_neg hle, if_neg hv]
        have hnv : link ∉ s.visited := by simpa using hv
        have hlink : link ∈ linksOf g t := by
          rw [← hdone]
          simp
        have hpush := plinv_push g startPage endPage t cp dpop s hinv link hlink hnv hle
        apply ih (done ++ [link]) _ hpush hdone' hedone'
        intro u hu
        rcases List.mem_append.mp hu with h | h
        · obtain ⟨huv, q, hq, hql⟩ := hdoneU u h
          have hune : u ≠ link := fun he => hnv (he ▸ huv)
          exact ⟨List.mem_cons_of_mem _ huv, q, (lookup_cons_ne hune).trans hq, hql⟩
        · simp at h
          rw [h]
          refine ⟨List.mem_cons_self _ _, cp ++ [link], List.lookup_cons_self, ?_⟩
          rw [List.length_append, hinv.cp_len]
          simp

/-- One full expansion iteration: popping the head `(t, dpop)` of a state
satisfying the invariant yields its stored path, and processing its links
either returns `current_path + [end]` with a duplicate-free push log, or
restores the invariant on the new state. -/
theorem bfs_iteration (g : Graph) (startPage endPage : String) (st : Store)
    (t : String) (dpop : Nat) (rest : List QItem)
    (hinv : BfsInv g startPage endPage st) (hq : st.queue = ⟨t, dpop⟩ :: rest) :
    ∃ cp, st.paths.lookup t = some cp ∧ cp.length = dpop + 1 ∧ cp ≠ [] ∧
      (match processLinks endPage cp dpop (linksOf g t) { st with queue := rest } with
       | (some p, s') => p = cp ++ [endPage] ∧ endPage ∈ linksOf g t ∧ s'.pushLog.Nodup
       | (none, s') => BfsInv g startPage endPage s') := by
  have hmem : (⟨t, dpop⟩ : QItem) ∈ st.queue := by rw [hq]; simp
  obtain ⟨cp, hcp, hcplen⟩ := hinv.queue_path ⟨t, dpop⟩ hmem
  have hcpne : cp ≠ [] := by
    intro h
    rw [h] at hcplen
    simp at hcplen
  have hqn : (qpages st.queue).Nodup := hinv.queue_nodup
  have hqn' : (t :: qpages rest).Nodup := by
    rw [hq] at hqn
    exact hqn
  have htq : t ∉ qpages rest := (List.nodup_cons.mp hqn').1
  have hplinv : PLInv g startPage endPage t cp dpop { st with queue := rest } := by
    refine ⟨hinv.start_vis, hinv.end_not_vis, hinv.start_path, hinv.path_valid,
      hinv.vis_path, ?_, ?_, (List.nodup_cons.mp hqn').2, ?_,
      (hinv.path_valid t cp hcp).1, htq, hcp, hcplen, ?_,
      hinv.log_nodup, hinv.log_vis, ?_⟩
    · intro it hit
      exact hinv.queue_path it (by rw [hq]; exact List.mem_cons_of_mem _ hit)
    · obtain ⟨D, A, B, hAB, hA, hB⟩ := hinv.queue_split
      rw [hq] at hAB
      cases A with
      | nil =>
        simp at hAB
        refine ⟨rest, [], by simp, ?_, by simp⟩
        intro it hit
        have hitB : it ∈ B := by rw [← hAB]; exact List.mem_cons_of_mem _ hit
        have h0 : (⟨t, dpop⟩ : QItem) ∈ B := by rw [← hAB]; simp
        have hD : dpop = D + 1 := hB _ h0
        rw [hB it hitB, hD]
      | cons a A' =>
        rw [List.cons_append] at hAB
        injection hAB with ha hrest
        have hD : dpop = D := by
          have := hA a (by simp)
          rw [← ha] at this
          exact this
        refine ⟨A', B, hrest, ?_, ?_⟩
        · intro it hit
          rw [hA it (List.mem_cons_of_mem _ hit), hD]
        · intro it hit
          rw [hB it hit, hD]
    · intro x hx
      refine hinv.vis_bound ⟨t, dpop⟩ ?_ x hx
      show st.queue.head? = some ⟨t, dpop⟩
      rw [hq]
      rfl
    · intro v hv hvq hvt
      refine hinv.expanded v hv ?_
      rw [hq]
      intro hmem'
      rcases List.mem_cons.mp hmem' with h | h
      · exact hvt h
      · exact hvq h
    · intro it hit
      exact hinv.queue_log it (by rw [hq]; exact List.mem_cons_of_mem _ hit)
  refine ⟨cp, hcp, hcplen, hcpne, ?_⟩
  have hspec := processLinks_spec g startPage endPage t cp dpop (linksOf g t) []
    { st with queue := rest } hplinv rfl (by simp) (by simp)
  rcases hpl : processLinks endPage cp dpop (linksOf g t) { st with queue := rest }
    with ⟨res, s'⟩
  rw [hpl] at hspec
  cases res with
  | some p =>
    obtain ⟨h1, h2, h3⟩ := hspec
    exact ⟨h1, h2, h3.log_nodup⟩
  | none =>
    exact hspec.1

/-- Soundness of the loop: under the invariant, a found result is a
duplicate-free link chain from start to target of minimal length, at most
`max_depth + 2` titles long, and the session never enqueued a title twice. -/
theorem bfsLoop_found_props (g : Graph) (startPage endPage : String) (maxDepth : Nat) :
    ∀ (fuel n : Nat) (st : Store) (p : List String) (k : Nat) (st' : Store),
      BfsInv g startPage endPage st → startPage ≠ endPage →
      bfsLoop g endPage maxDepth fuel n st = (.found p k, st') →
      isPathFromTo g p startPage endPage ∧ p.Nodup ∧ p.length ≤ maxDepth + 2 ∧
        (∀ q, isPathFromTo g q startPage endPage → p.length ≤ q.length) ∧
        st'.pushLog.Nodup := by
  intro fuel
  induction fuel with
  | zero =>
    intro n st p k st' hinv hne hrun
    rw [bfsLoop_zero] at hrun
    simp at hrun
  | succ f ih =>
    intro n st p k st' hinv hne hrun
    cases hq : st.queue with
    | nil =>
      rw [bfsLoop_nil g endPage maxDepth f n st hq] at hrun
      simp at hrun
    | cons item rest =>
      obtain ⟨t0, d0⟩ := item
      by_cases hd : maxDepth < d0
      · rw [bfsLoop_break g endPage maxDepth f n st ⟨t0, d0⟩ rest hq hd] at hrun
        simp at hrun
      · obtain ⟨cp, hcp, hcplen, hcpne, hmatch⟩ :=
          bfs_iteration g startPage endPage st t0 d0 rest hinv hq
        rw [bfsLoop_step g endPage maxDepth f n st ⟨t0, d0⟩ rest cp hq hd hcp hcpne] at hrun
        rcases hpl : processLinks endPage cp d0 (linksOf g t0) { st with queue := rest }
          with ⟨res, s1⟩
        rw [hpl] at hrun hmatch
        cases res with
        | some pfound =>
          have h1 := congrArg Prod.fst hrun
          have h2 := congrArg Prod.snd hrun
          simp at h1 h2
          obtain ⟨hpp, _⟩ := h1
          obtain ⟨hfeq, hendmem, hlog⟩ := hmatch
          obtain ⟨ht0v, hhead, hlast, hchain, hnodup, hendcp, helems⟩ :=
            hinv.path_valid t0 cp hcp
          have hp : p = cp ++ [endPage] := by rw [← hpp, hfeq]
          have hplen : p.length = d0 + 2 := by
            rw [hp, List.length_append, hcplen]
            simp
          have hdge : ∀ it ∈ st.queue, d0 ≤ it.depth :=
            queue_depth_ge_head g startPage endPage st hinv ⟨t0, d0⟩ rest hq
          refine ⟨?_, ?_, ?_, ?_, ?_⟩
          · refine ⟨?_, ?_, ?_⟩
            · rw [hp, head?_append_ne_nil cp [endPage] hcpne]
              exact hhead
            · rw [hp]
              exact List.getLast?_concat cp
            · rw [hp]
              refine (List.chain'_append).mpr
                ⟨hchain, List.chain'_singleton endPage, ?_⟩
              intro x hx y hy
              simp at hy
              subst hy
              rw [hlast] at hx
              have hxt : x = t0 := by
                have := hx
                simp at this
                exact this.symm
              rw [hxt]
              exact hendmem
          · rw [hp, List.nodup_append]
            refine ⟨hnodup, List.nodup_singleton _, ?_⟩
            intro x hx
            simp
            intro hxe
            rw [hxe] at hx
            exact hendcp hx
          · omega
          · intro q hqp
            have := bfs_no_short_path g startPage endPage st hinv d0 hdge hne q hqp
            omega
          · rw [← h2]
            exact hlog
        | none =>
          exact ih (n + 1) s1 p k st' hmatch hne hrun

/-- Completeness of the loop: under the invariant, falling through to
`PathNotFoundError` — by queue drain or by the depth break — means the
target is not reachable within `max_depth + 1` hops. -/
theorem bfsLoop_notFound_unreach (g : Graph) (startPage endPage : String) (maxDepth : Nat) :
    ∀ (fuel n : Nat) (st : Store) (st' : Store),
      BfsInv g startPage endPage st → startPage ≠ endPage →
      bfsLoop g endPage maxDepth fuel n st = (.notFound, st') →
      ¬ ReachableIn g startPage endPage (maxDepth + 1) := by
  intro fuel
  induction fuel with
  | zero =>
    intro n st st' hinv hne hrun
    rw [bfsLoop_zero] at hrun
    simp at hrun
  | succ f ih =>
    intro n st st' hinv hne hrun
    cases hq : st.queue with
    | nil =>
      rintro ⟨qp, hqp, hqlen⟩
      have hvac : ∀ it ∈ st.queue, maxDepth + 1 ≤ it.depth := by
        rw [hq]
        simp
      exact bfs_no_short_path g startPage endPage st hinv (maxDepth + 1) hvac hne qp hqp
        (by omega)
    | cons item rest =>
      obtain ⟨t0, d0⟩ := item
      by_cases hd : maxDepth < d0
      · rintro ⟨qp, hqp, hqlen⟩
        have hdge : ∀ it ∈ st.queue, d0 ≤ it.depth :=
          queue_depth_ge_head g startPage endPage st hinv ⟨t0, d0⟩ rest hq
        exact bfs_no_short_path g startPage endPage st hinv d0 hdge hne qp hqp
          (by omega)
      · obtain ⟨cp, hcp, hcplen, hcpne, hmatch⟩ :=
          bfs_iteration g startPage endPage st t0 d0 rest hinv hq
        rw [bfsLoop_step g endPage maxDepth f n st ⟨t0, d0⟩ rest cp hq hd hcp hcpne] at hrun
        rcases hpl : processLinks endPage cp d0 (linksOf g t0) { st with queue := rest }
          with ⟨res, s1⟩
        rw [hpl] at hrun hmatch
        cases res with
        | some pfound => simp at hrun
        | none => exact ih (n + 1) s1 st' hmatch hne hrun

/-- On every exit of the loop the ghost push log is duplicate-free: no title
was ever enqueued twice during the session. -/
theorem bfsLoop_pushLog_nodup (g : Graph) (startPage endPage : String) (maxDepth : Nat) :
    ∀ (fuel n : Nat) (st : Store), BfsInv g startPage endPage st →
      ((bfsLoop g endPage maxDepth fuel n st).2).pushLog.Nodup := by
  intro fuel
  induction fuel with
  | zero =>
    intro n st hinv
    rw [bfsLoop_zero]
    exact hinv.log_nodup
  | succ f ih =>
    intro n st hinv
    cases hq : st.queue with
    | nil =>
      rw [bfsLoop_nil g endPage maxDepth f n st hq]
      exact hinv.log_nodup
    | cons item rest =>
      obtain ⟨t0, d0⟩ := item
      by_cases hd : maxDepth < d0
      · rw [bfsLoop_break g endPage maxDepth f n st ⟨t0, d0⟩ rest hq hd]
        exact hinv.log_nodup
      · obtain ⟨cp, hcp, hcplen, hcpne, hmatch⟩ :=
          bfs_iteration g startPage endPage st t0 d0 rest hinv hq
        rw [bfsLoop_step g endPage maxDepth f n st ⟨t0, d0⟩ rest cp hq hd hcp hcpne]
        rcases hpl : processLinks endPage cp d0 (linksOf g t0) { st with queue := rest }
          with ⟨res, s1⟩
        rw [hpl] at hmatch
        cases res with
        | some pfound => exact hmatch.2.2
        | none => exact ih (n + 1) s1 hmatch

/-- The invariant holds right after seeding a fresh session. -/
theorem seed_inv (g : Graph) (startPage endPage : String) (hne : startPage ≠ endPage) :
    BfsInv g startPage endPage (seedSearch startPage emptyStore) := by
  show BfsInv g startPage endPage
    { queue := [⟨startPage, 0⟩], visited := [startPage],
      paths := [(startPage, [startPage])], pushLog := [startPage] }
  refine ⟨?_, ?_, ?_, ?_, ?_, ?_, ?_, ?_, ?_, ?_, ?_, ?_, ?_⟩
  · simp
  · simp
    exact Ne.symm hne
  · exact List.lookup_cons_self
  · intro t p h
    by_cases ht : t = startPage
    · rw [ht, List.lookup_cons_self] at h
      have hp : p = [startPage] := (Option.some.inj h).symm
      subst hp
      rw [ht]
      refine ⟨by simp, rfl, rfl, List.chain'_singleton _, List.nodup_singleton _, ?_, by simp⟩
      simp
      exact Ne.symm hne
    · rw [lookup_cons_ne ht] at h
      simp at h
  · intro t ht
    simp at ht
    rw [ht]
    exact ⟨[startPage], List.lookup_cons_self⟩
  · intro it hit
    simp at hit
    rw [hit]
    exact ⟨[startPage], List.lookup_cons_self, rfl⟩
  · exact ⟨0, [⟨startPage, 0⟩], [], by simp, by simp, by simp⟩
  · simp [qpages]
  · intro it hit t ht
    simp at ht
    rw [ht]
    refine ⟨[startPage], List.lookup_cons_self, ?_⟩
    simp
  · intro t ht htq
    simp at ht
    rw [ht] at htq
    simp [qpages] at htq
  · simp
  · intro t ht
    simpa using ht
  · intro it hit
    simp at hit
    rw [hit]
    simp

/-- C1 (amended): for existing distinct pages with the target reachable
within `max_depth + 1` hops, `find_shortest_path` starting from a fresh
session returns a path beginning at the start page, ending at the target,
with every adjacent pair joined by a direct link, and no path in the graph
from start to target has fewer hops. -/
theorem bfs_returns_shortest_path
    (g : Graph) (pageExists : String → Bool) (maxDepth : Nat)
    (startPage endPage : String)
    (hs : startPage ≠ "") (he : endPage ≠ "") (hne : startPage ≠ endPage)
    (hps : pageExists startPage = true) (hpe : pageExists endPage = true)
    (hreach : ReachableIn g startPage endPage (maxDepth + 1)) (ops : StoreOps) :
    ∃ p k st',
      find_shortest_path g pageExists maxDepth startPage endPage emptyStore ops
        = (.ok ⟨p, k⟩, st') ∧
      p.head? = some startPage ∧ p.getLast? = some endPage ∧
      List.Chain' (fun a b => b ∈ linksOf g a) p ∧
      ∀ q, isPathFromTo g q startPage endPage → p.length ≤ q.length := by
  have hinv := seed_inv g startPage endPage hne
  simp only [find_shortest_path, if_neg hs, if_neg he, if_neg hne, hps, hpe]
  rcases hb : bfsLoop g endPage maxDepth (bfsFuel g (seedSearch startPage emptyStore)) 0
      (seedSearch startPage emptyStore) with ⟨outcome, st1⟩
  cases outcome with
  | found p k =>
    obtain ⟨⟨h1, h2, h3⟩, _, _, hmin, _⟩ :=
      bfsLoop_found_props g startPage endPage maxDepth _ 0 _ p k st1 hinv hne hb
    exact ⟨p, k, cleanupSearchState ops st1, by simp, h1, h2, h3, hmin⟩
  | notFound =>
    exact absurd hreach
      (bfsLoop_notFound_unreach g startPage endPage maxDepth _ 0 _ st1 hinv hne hb)
  | fuelOut =>
    have := bfsLoop_ne_fuelOut g endPage maxDepth
      (bfsFuel g (seedSearch startPage emptyStore)) 0 (seedSearch startPage emptyStore)
      (bfsMeasure_lt_bfsFuel g (seedSearch startPage emptyStore))
    rw [hb] at this
    simp at this

/-- Witness for C1 at a concrete two-page graph. -/
theorem bfs_returns_shortest_path_witness :
    (("A" : String) ≠ "" ∧ ("B" : String) ≠ "" ∧ ("A" : String) ≠ "B" ∧
      ReachableIn [("A", ["B"])] "A" "B" 7) ∧
    ∃ p k st',
      find_shortest_path [("A", ["B"])] (fun _ => true) 6 "A" "B" emptyStore healthyOps
        = (.ok ⟨p, k⟩, st') ∧
      p.head? = some "A" ∧ p.getLast? = some "B" ∧
      List.Chain' (fun a b => b ∈ linksOf [("A", ["B"])] a) p ∧
      ∀ q, isPathFromTo [("A", ["B"])] q "A" "B" → p.length ≤ q.length :=
  ⟨⟨by decide, by decide, by decide, ⟨["A", "B"], ⟨rfl, rfl, by simp only [List.chain'_cons, List.chain'_singleton]; decide⟩, by decide⟩⟩,
    bfs_returns_shortest_path [("A", ["B"])] (fun _ => true) 6 "A" "B"
      (by decide) (by decide) (by decide) rfl rfl
      ⟨["A", "B"], ⟨rfl, rfl, by simp only [List.chain'_cons, List.chain'_singleton]; decide⟩, by decide⟩ healthyOps⟩

/-- Counterexample to C1 as stated: in a 9-page chain the end page is
reachable from the start, both exist and differ, yet the engine with its
default `max_depth = 6` raises `PathNotFoundError` instead of returning the
8-hop path. -/
theorem bfs_depth_cutoff_counterexample :
    ReachableIn
        [("A", ["B"]), ("B", ["C"]), ("C", ["D"]), ("D", ["E"]), ("E", ["F"]),
         ("F", ["G"]), ("G", ["H"]), ("H", ["I"])] "A" "I" 8 ∧
      (find_shortest_path
          [("A", ["B"]), ("B", ["C"]), ("C", ["D"]), ("D", ["E"]), ("E", ["F"]),
           ("F", ["G"]), ("G", ["H"]), ("H", ["I"])]
          (fun _ => true) 6 "A" "I" emptyStore healthyOps).1
        = .error .pathNotFound :=
  ⟨⟨["A", "B", "C", "D", "E", "F", "G", "H", "I"], ⟨rfl, rfl, by simp only [List.chain'_cons, List.chain'_singleton]; decide⟩,
      by decide⟩,
    by rfl⟩

/-- C5: for existing distinct pages with no path to the target within the
engine's bound (`max_depth + 1` hops), `find_shortest_path` raises
`PathNotFoundError` — covering both the drained-queue and the depth-cutoff
exits, which are the only ways the loop ends without returning. -/
theorem unreachable_raises_path_not_found
    (g : Graph) (pageExists : String → Bool) (maxDepth : Nat)
    (startPage endPage : String)
    (hs : startPage ≠ "") (he : endPage ≠ "") (hne : startPage ≠ endPage)
    (hps : pageExists startPage = true) (hpe : pageExists endPage = true)
    (hnr : ¬ ReachableIn g startPage endPage (maxDepth + 1)) (ops : StoreOps) :
    ∃ st',
      find_shortest_path g pageExists maxDepth startPage endPage emptyStore ops
        = (.error .pathNotFound, st') := by
  have hinv := seed_inv g startPage endPage hne
  simp only [find_shortest_path, if_neg hs, if_neg he, if_neg hne, hps, hpe]
  rcases hb : bfsLoop g endPage maxDepth (bfsFuel g (seedSearch startPage emptyStore)) 0
      (seedSearch startPage emptyStore) with ⟨outcome, st1⟩
  cases outcome with
  | found p k =>
    obtain ⟨hpath, _, hlen, _, _⟩ :=
      bfsLoop_found_props g startPage endPage maxDepth _ 0 _ p k st1 hinv hne hb
    exact absurd ⟨p, hpath, by omega⟩ hnr
  | notFound => exact ⟨cleanupSearchState ops st1, by simp⟩
  | fuelOut =>
    have := bfsLoop_ne_fuelOut g endPage maxDepth
      (bfsFuel g (seedSearch startPage emptyStore)) 0 (seedSearch startPage emptyStore)
      (bfsMeasure_lt_bfsFuel g (seedSearch startPage emptyStore))
    rw [hb] at this
    simp at this

/-- Witness for C5 on the empty graph, where nothing links anywhere. -/
theorem unreachable_raises_path_not_found_witness :
    (¬ ReachableIn [] "A" "B" 7) ∧
    ∃ st', find_shortest_path [] (fun _ => true) 6 "A" "B" emptyStore healthyOps
      = (.error .pathNotFound, st') := by
  have hnr : ¬ ReachableIn [] "A" "B" 7 := by
    rintro ⟨p, ⟨hhead, hlast, hchain⟩, _⟩
    cases p with
    | nil => simp at hhead
    | cons a rest =>
      have ha : a = "A" := by simpa using hhead
      cases rest with
      | nil =>
        have : a = "B" := by simpa using hlast
        rw [ha] at this
        simp at this
      | cons b rest' =>
        have hb : b ∈ linksOf [] a := (List.chain'_cons.mp hchain).1
        simp [linksOf] at hb
  exact ⟨hnr, unreachable_raises_path_not_found [] (fun _ => true) 6 "A" "B"
    (by decide) (by decide) (by decide) rfl rfl hnr healthyOps⟩

/-- C8: during a whole search session no title is ever pushed onto the queue
twice (the ghost push log of the final store is duplicate-free on every
outcome), and consequently every returned path is simple. -/
theorem no_double_enqueue_and_simple_path
    (g : Graph) (pageExists : String → Bool) (maxDepth : Nat)
    (startPage endPage : String) :
    (find_shortest_path g pageExists maxDepth startPage endPage emptyStore
        healthyOps).2.pushLog.Nodup ∧
      ∀ p k, (find_shortest_path g pageExists maxDepth startPage endPage emptyStore
          healthyOps).1 = .ok ⟨p, k⟩ → p.Nodup := by
  by_cases hs : startPage = ""
  · simp [find_shortest_path, hs, emptyStore]
  by_cases he : endPage = ""
  · simp [find_shortest_path, hs, he, emptyStore]
  by_cases hne : startPage = endPage
  · simp only [find_shortest_path, if_neg hs, if_neg he, if_pos hne]
    constructor
    · show (emptyStore.pushLog).Nodup
      simp [emptyStore]
    · intro p k h
      simp at h
      rw [← h.1]
      exact List.nodup_singleton _
  by_cases hps : pageExists startPage = true
  · by_cases hpe : pageExists endPage = true
    · have hinv := seed_inv g startPage endPage hne
      simp only [find_shortest_path, if_neg hs, if_neg he, if_neg hne, hps, hpe]
      rcases hb : bfsLoop g endPage maxDepth
          (bfsFuel g (seedSearch startPage emptyStore)) 0
          (seedSearch startPage emptyStore) with ⟨outcome, st1⟩
      have hlog := bfsLoop_pushLog_nodup g startPage endPage maxDepth
        (bfsFuel g (seedSearch startPage emptyStore)) 0 (seedSearch startPage emptyStore)
        hinv
      rw [hb] at hlog
      cases outcome with
      | found p k =>
        obtain ⟨_, hnodup, _, _, _⟩ :=
          bfsLoop_found_props g startPage endPage maxDepth _ 0 _ p k st1 hinv hne hb
        constructor
        · show (cleanupSearchState healthyOps st1).pushLog.Nodup
          rw [cleanup_healthy]
          exact hlog
        · intro p' k' h
          simp at h
          rw [← h.1]
          exact hnodup
      | notFound =>
        constructor
        · show (cleanupSearchState healthyOps st1).pushLog.Nodup
          rw [cleanup_healthy]
          exact hlog
        · intro p' k' h
          simp at h
      | fuelOut =>
        constructor
        · show (cleanupSearchState healthyOps st1).pushLog.Nodup
          rw [cleanup_healthy]
          exact hlog
        · intro p' k' h
          simp at h
    · simp only [find_shortest_path, if_neg hs, if_neg he, if_neg hne]
      simp [hps, hpe, emptyStore]
  · simp only [find_shortest_path, if_neg hs, if_neg he, if_neg hne]
    simp [hps, emptyStore]

/-- Witness for C8 at a concrete one-edge search that returns a path. -/
theorem no_double_enqueue_and_simple_path_witness :
    (find_shortest_path [("A", ["B"])] (fun _ => true) 6 "A" "B" emptyStore
        healthyOps).2.pushLog.Nodup ∧ (["A", "B"] : List String).Nodup :=
  ⟨(no_double_enqueue_and_simple_path [("A", ["B"])] (fun _ => true) 6 "A" "B").1,
    (no_double_enqueue_and_simple_path [("A", ["B"])] (fun _ => true) 6 "A" "B").2
      ["A", "B"] 1 (by rfl)⟩
